import Mathlib

/-!
Verification of the dual-document diff-and-highlight reconciliation engine
of `backend/app/main.py` (tokenizer, tree flattener, difflib-based aligner,
diff classifier, location resolver, highlight injector, orchestrator).

The Python functions are shallowly embedded as executable Lean functions.
HTML parsing (BeautifulSoup) is external to the engine; documents are
modelled as already-parsed trees (`HNode`), which is what every engine
function actually manipulates.  Machine integers do not occur (Python ints
are unbounded), so `Nat` is used throughout.
-/

namespace ContractDiff

/-! ### Character classes

`pyIsSpace` is Python's `str.isspace` on a single character: the exact
(finite) set of Unicode codepoints for which CPython 3.11 returns true.
`punct_ranges` is the exact list of maximal codepoint intervals whose
Unicode general category starts with "P" (Unicode 14.0.0, the table used
by the CPython `unicodedata` module the source calls). -/

def pySpaceCodepoints : List Nat :=
  [0x9, 0xA, 0xB, 0xC, 0xD, 0x1C, 0x1D, 0x1E, 0x1F, 0x20,
   0x85, 0xA0, 0x1680,
   0x2000, 0x2001, 0x2002, 0x2003, 0x2004, 0x2005, 0x2006, 0x2007,
   0x2008, 0x2009, 0x200A, 0x2028, 0x2029, 0x202F, 0x205F, 0x3000]

def pyIsSpace (c : Char) : Bool :=
  pySpaceCodepoints.contains c.toNat

/-- `_is_cjk_char` of `main.py`: CJK Unified Ideographs, extensions A–E and
Compatibility Ideographs, by codepoint range. -/
def is_cjk_char (c : Char) : Bool :=
  let codepoint := c.toNat
  (0x4E00 ≤ codepoint && codepoint ≤ 0x9FFF)
  || (0x3400 ≤ codepoint && codepoint ≤ 0x4DBF)
  || (0x20000 ≤ codepoint && codepoint ≤ 0x2A6DF)
  || (0x2A700 ≤ codepoint && codepoint ≤ 0x2B73F)
  || (0x2B740 ≤ codepoint && codepoint ≤ 0x2B81F)
  || (0x2B820 ≤ codepoint && codepoint ≤ 0x2CEAF)
  || (0xF900 ≤ codepoint && codepoint ≤ 0xFAFF)

def punct_ranges : List (Nat × Nat) := [
  (0x21, 0x23), (0x25, 0x2A), (0x2C, 0x2F), (0x3A, 0x3B), (0x3F, 0x40), (0x5B, 0x5D),
  (0x5F, 0x5F), (0x7B, 0x7B), (0x7D, 0x7D), (0xA1, 0xA1), (0xA7, 0xA7), (0xAB, 0xAB),
  (0xB6, 0xB7), (0xBB, 0xBB), (0xBF, 0xBF), (0x37E, 0x37E), (0x387, 0x387), (0x55A, 0x55F),
  (0x589, 0x58A), (0x5BE, 0x5BE), (0x5C0, 0x5C0), (0x5C3, 0x5C3), (0x5C6, 0x5C6), (0x5F3, 0x5F4),
  (0x609, 0x60A), (0x60C, 0x60D), (0x61B, 0x61B), (0x61D, 0x61F), (0x66A, 0x66D), (0x6D4, 0x6D4),
  (0x700, 0x70D), (0x7F7, 0x7F9), (0x830, 0x83E), (0x85E, 0x85E), (0x964, 0x965), (0x970, 0x970),
  (0x9FD, 0x9FD), (0xA76, 0xA76), (0xAF0, 0xAF0), (0xC77, 0xC77), (0xC84, 0xC84), (0xDF4, 0xDF4),
  (0xE4F, 0xE4F), (0xE5A, 0xE5B), (0xF04, 0xF12), (0xF14, 0xF14), (0xF3A, 0xF3D), (0xF85, 0xF85),
  (0xFD0, 0xFD4), (0xFD9, 0xFDA), (0x104A, 0x104F), (0x10FB, 0x10FB), (0x1360, 0x1368), (0x1400, 0x1400),
  (0x166E, 0x166E), (0x169B, 0x169C), (0x16EB, 0x16ED), (0x1735, 0x1736), (0x17D4, 0x17D6), (0x17D8, 0x17DA),
  (0x1800, 0x180A), (0x1944, 0x1945), (0x1A1E, 0x1A1F), (0x1AA0, 0x1AA6), (0x1AA8, 0x1AAD), (0x1B5A, 0x1B60),
  (0x1B7D, 0x1B7E), (0x1BFC, 0x1BFF), (0x1C3B, 0x1C3F), (0x1C7E, 0x1C7F), (0x1CC0, 0x1CC7), (0x1CD3, 0x1CD3),
  (0x2010, 0x2027), (0x2030, 0x2043), (0x2045, 0x2051), (0x2053, 0x205E), (0x207D, 0x207E), (0x208D, 0x208E),
  (0x2308, 0x230B), (0x2329, 0x232A), (0x2768, 0x2775), (0x27C5, 0x27C6), (0x27E6, 0x27EF), (0x2983, 0x2998),
  (0x29D8, 0x29DB), (0x29FC, 0x29FD), (0x2CF9, 0x2CFC), (0x2CFE, 0x2CFF), (0x2D70, 0x2D70), (0x2E00, 0x2E2E),
  (0x2E30, 0x2E4F), (0x2E52, 0x2E5D), (0x3001, 0x3003), (0x3008, 0x3011), (0x3014, 0x301F), (0x3030, 0x3030),
  (0x303D, 0x303D), (0x30A0, 0x30A0), (0x30FB, 0x30FB), (0xA4FE, 0xA4FF), (0xA60D, 0xA60F), (0xA673, 0xA673),
  (0xA67E, 0xA67E), (0xA6F2, 0xA6F7), (0xA874, 0xA877), (0xA8CE, 0xA8CF), (0xA8F8, 0xA8FA), (0xA8FC, 0xA8FC),
  (0xA92E, 0xA92F), (0xA95F, 0xA95F), (0xA9C1, 0xA9CD), (0xA9DE, 0xA9DF), (0xAA5C, 0xAA5F), (0xAADE, 0xAADF),
  (0xAAF0, 0xAAF1), (0xABEB, 0xABEB), (0xFD3E, 0xFD3F), (0xFE10, 0xFE19), (0xFE30, 0xFE52), (0xFE54, 0xFE61),
  (0xFE63, 0xFE63), (0xFE68, 0xFE68), (0xFE6A, 0xFE6B), (0xFF01, 0xFF03), (0xFF05, 0xFF0A), (0xFF0C, 0xFF0F),
  (0xFF1A, 0xFF1B), (0xFF1F, 0xFF20), (0xFF3B, 0xFF3D), (0xFF3F, 0xFF3F), (0xFF5B, 0xFF5B), (0xFF5D, 0xFF5D),
  (0xFF5F, 0xFF65), (0x10100, 0x10102), (0x1039F, 0x1039F), (0x103D0, 0x103D0), (0x1056F, 0x1056F), (0x10857, 0x10857),
  (0x1091F, 0x1091F), (0x1093F, 0x1093F), (0x10A50, 0x10A58), (0x10A7F, 0x10A7F), (0x10AF0, 0x10AF6), (0x10B39, 0x10B3F),
  (0x10B99, 0x10B9C), (0x10EAD, 0x10EAD), (0x10F55, 0x10F59), (0x10F86, 0x10F89), (0x11047, 0x1104D), (0x110BB, 0x110BC),
  (0x110BE, 0x110C1), (0x11140, 0x11143), (0x11174, 0x11175), (0x111C5, 0x111C8), (0x111CD, 0x111CD), (0x111DB, 0x111DB),
  (0x111DD, 0x111DF), (0x11238, 0x1123D), (0x112A9, 0x112A9), (0x1144B, 0x1144F), (0x1145A, 0x1145B), (0x1145D, 0x1145D),
  (0x114C6, 0x114C6), (0x115C1, 0x115D7), (0x11641, 0x11643), (0x11660, 0x1166C), (0x116B9, 0x116B9), (0x1173C, 0x1173E),
  (0x1183B, 0x1183B), (0x11944, 0x11946), (0x119E2, 0x119E2), (0x11A3F, 0x11A46), (0x11A9A, 0x11A9C), (0x11A9E, 0x11AA2),
  (0x11C41, 0x11C45), (0x11C70, 0x11C71), (0x11EF7, 0x11EF8), (0x11FFF, 0x11FFF), (0x12470, 0x12474), (0x12FF1, 0x12FF2),
  (0x16A6E, 0x16A6F), (0x16AF5, 0x16AF5), (0x16B37, 0x16B3B), (0x16B44, 0x16B44), (0x16E97, 0x16E9A), (0x16FE2, 0x16FE2),
  (0x1BC9F, 0x1BC9F), (0x1DA87, 0x1DA8B), (0x1E95E, 0x1E95F)
]

/-- `_is_punctuation` of `main.py`: `unicodedata.category(char).startswith("P")`,
realised over the explicit interval table of the "P" general categories. -/
def is_punct (c : Char) : Bool :=
  punct_ranges.any (fun r => r.1 ≤ c.toNat && c.toNat ≤ r.2)

/-! ### Tokenizer (`_tokenize_text`)

The Python loop keeps a buffer of pending non-special characters; a
whitespace / CJK / punctuation character flushes the buffer and is emitted
as its own token; end of input flushes the rest.  The buffer is the second
argument of `tokenize_aux`. -/

def flush_buffer (buffer : List Char) : List String :=
  if buffer.isEmpty then [] else [String.mk buffer]

def tokenize_aux : List Char → List Char → List String
  | [], buffer => flush_buffer buffer
  | c :: rest, buffer =>
    if pyIsSpace c then
      flush_buffer buffer ++ [String.singleton c] ++ tokenize_aux rest []
    else if is_cjk_char c || is_punct c then
      flush_buffer buffer ++ [String.singleton c] ++ tokenize_aux rest []
    else
      tokenize_aux rest (buffer ++ [c])

def tokenize_text (s : String) : List String :=
  tokenize_aux s.data []

/-- Python's `"".join(tokens)`. -/
def join_tokens (tokens : List String) : String :=
  tokens.foldl (fun acc t => acc ++ t) ""

/-! #### Tokenizer lemmas -/

theorem join_tokens_data (tokens : List String) :
    (join_tokens tokens).data = tokens.flatMap String.data := by
  suffices h : ∀ (acc : String),
      (tokens.foldl (fun acc t => acc ++ t) acc).data =
        acc.data ++ tokens.flatMap String.data by
    simpa using h ""
  induction tokens with
  | nil => intro acc; simp
  | cons t rest ih =>
    intro acc
    simp [List.foldl_cons, ih, List.flatMap_cons]

theorem flush_buffer_data (buffer : List Char) :
    (flush_buffer buffer).flatMap String.data = buffer := by
  cases buffer with
  | nil => simp [flush_buffer]
  | cons c cs => simp [flush_buffer, String.mk]

theorem tokenize_aux_data (cs : List Char) (buffer : List Char) :
    (tokenize_aux cs buffer).flatMap String.data = buffer ++ cs := by
  induction cs generalizing buffer with
  | nil => simp [tokenize_aux, flush_buffer_data]
  | cons c rest ih =>
    by_cases hs : pyIsSpace c
    · simp [tokenize_aux, hs, flush_buffer_data, ih, String.singleton]
    · by_cases hc : is_cjk_char c || is_punct c
      · simp [tokenize_aux, hs, hc, flush_buffer_data, ih, String.singleton]
      · simp [tokenize_aux, hs, hc, ih]

theorem join_tokenize_aux (cs : List Char) (buffer : List Char) :
    join_tokens (tokenize_aux cs buffer) = String.mk (buffer ++ cs) := by
  apply String.ext
  rw [join_tokens_data, tokenize_aux_data]

/-- The characters the tokenizer always emits as their own token:
whitespace, CJK, or Unicode punctuation (the two emit branches of
`_tokenize_text`). -/
def special_char (c : Char) : Bool :=
  pyIsSpace c || (is_cjk_char c || is_punct c)

/-- A maximal-run token: nonempty and free of special characters. -/
def plain_run (t : String) : Bool :=
  !t.data.isEmpty && t.data.all (fun c => !special_char c)

theorem plain_run_singleton (c : Char) (h : special_char c = true) :
    plain_run (String.singleton c) = false := by
  simp [plain_run, String.singleton, h]

theorem plain_run_mk (buf : List Char) (hne : ¬buf.isEmpty)
    (h : ∀ c ∈ buf, special_char c = false) :
    plain_run (String.mk buf) = true := by
  cases buf with
  | nil => simp at hne
  | cons c cs =>
    simp only [plain_run, String.mk, Bool.and_eq_true, List.all_eq_true]
    exact ⟨by simp, fun x hx => by simp [h x hx]⟩

/-- Every token is either a single special character or a plain run. -/
def token_ok (t : String) : Prop :=
  (∃ c, special_char c = true ∧ t = String.singleton c) ∨ plain_run t = true

theorem flush_buffer_ok (buf : List Char) (h : ∀ c ∈ buf, special_char c = false) :
    ∀ t ∈ flush_buffer buf, token_ok t := by
  intro t ht
  by_cases hb : buf.isEmpty
  · simp [flush_buffer, hb] at ht
  · simp only [flush_buffer, hb, if_neg, Bool.false_eq_true, not_false_eq_true,
      if_false, List.mem_singleton] at ht
    exact Or.inr (ht ▸ plain_run_mk buf hb h)

theorem tokenize_aux_shape (cs : List Char) (buffer : List Char)
    (hbuf : ∀ c ∈ buffer, special_char c = false) :
    (∀ t ∈ tokenize_aux cs buffer, token_ok t) ∧
      List.Chain' (fun a b => ¬(plain_run a = true ∧ plain_run b = true))
        (tokenize_aux cs buffer) := by
  induction cs generalizing buffer with
  | nil =>
    refine ⟨flush_buffer_ok buffer hbuf, ?_⟩
    by_cases hb : buffer.isEmpty <;> simp [tokenize_aux, flush_buffer, hb]
  | cons c rest ih =>
    by_cases hsp : special_char c = true
    · have hstep : tokenize_aux (c :: rest) buffer =
          flush_buffer buffer ++ [String.singleton c] ++ tokenize_aux rest [] := by
        by_cases hs : pyIsSpace c
        · simp [tokenize_aux, hs]
        · have hc : is_cjk_char c || is_punct c := by
            simpa [special_char, hs] using hsp
          simp [tokenize_aux, hs, hc]
      obtain ⟨ihOk, ihChain⟩ := ih [] (by simp)
      constructor
      · intro t ht
        rw [hstep] at ht
        simp only [List.append_assoc, List.mem_append, List.mem_singleton] at ht
        rcases ht with hF | hS | hT
        · exact flush_buffer_ok buffer hbuf t hF
        · exact Or.inl ⟨c, hsp, hS⟩
        · exact ihOk t hT
      · rw [hstep, List.append_assoc]
        rw [List.chain'_append]
        refine ⟨?_, ?_, ?_⟩
        · by_cases hb : buffer.isEmpty <;> simp [flush_buffer, hb]
        · rw [List.chain'_append]
          refine ⟨by simp, ihChain, ?_⟩
          intro x hx y _
          have hx' : x = String.singleton c := by simpa [eq_comm] using hx
          rw [hx']
          simp [plain_run_singleton c hsp]
        · intro x _ y hy
          have hy' : y = String.singleton c := by simpa [eq_comm] using hy
          rw [hy']
          simp [plain_run_singleton c hsp]
    · have hs : pyIsSpace c = false := by
        cases h : pyIsSpace c
        · rfl
        · exact absurd (by simp [special_char, h]) hsp
      have hc : (is_cjk_char c || is_punct c) = false := by
        cases h : (is_cjk_char c || is_punct c)
        · rfl
        · exact absurd (by simp [special_char, h]) hsp
      have hstep : tokenize_aux (c :: rest) buffer =
          tokenize_aux rest (buffer ++ [c]) := by
        simp [tokenize_aux, hs, hc]
      rw [hstep]
      exact ih (buffer ++ [c]) (by
        intro x hx
        rcases List.mem_append.mp hx with h | h
        · exact hbuf x h
        · simp only [List.mem_singleton] at h
          subst h
          simpa using hsp)

/-- C2 — Tokenizer granularity: for every input string the concatenation of
the tokens is the input, every token is either a single special character
(whitespace, CJK, Unicode punctuation) or a nonempty run free of special
characters, no two adjacent tokens are both such runs (runs are maximal);
moreover `_tokenize_text` maps `"合同A条款"` to `["合","同","A","条","款"]`,
`"ABC测试"` to `["ABC","测","试"]`, and `""` to `[]`. -/
theorem tokenizer_granularity :
    (∀ s : String,
      join_tokens (tokenize_text s) = s ∧
      (∀ t ∈ tokenize_text s, token_ok t) ∧
      List.Chain' (fun a b => ¬(plain_run a = true ∧ plain_run b = true))
        (tokenize_text s)) ∧
    tokenize_text "合同A条款" = ["合", "同", "A", "条", "款"] ∧
    tokenize_text "ABC测试" = ["ABC", "测", "试"] ∧
    tokenize_text "" = [] := by
  refine ⟨fun s => ⟨?_, ?_, ?_⟩, by decide, by decide, by decide⟩
  · rw [tokenize_text, join_tokenize_aux]
    simp
  · exact (tokenize_aux_shape s.data [] (by simp)).1
  · exact (tokenize_aux_shape s.data [] (by simp)).2

/-- Witness for C2 at a concrete input: the run token `"ABC"` of
`_tokenize_text "ABC测试"` satisfies the shape property. -/
theorem tokenizer_granularity_witness : token_ok "ABC" :=
  (tokenizer_granularity.1 "ABC测试").2.1 "ABC" (by decide)

/-- C10 — Tokenizer concatenation round-trip: concatenating the tokens of
`_tokenize_text s` in order reconstructs `s` exactly. -/
theorem tokenize_text_roundtrip (s : String) :
    join_tokens (tokenize_text s) = s := by
  rw [tokenize_text, join_tokenize_aux]
  simp

theorem tokenize_text_ne_nil (s : String) (h : s ≠ "") :
    tokenize_text s ≠ [] := by
  intro hnil
  apply h
  have := tokenize_text_roundtrip s
  rw [hnil] at this
  simpa [join_tokens] using this.symm

/-! ### Document trees

A parsed markup document is a forest of element/text nodes — the engine's
view of a `BeautifulSoup` tree.  `doc_texts` lists the text-bearing leaf
nodes in document (pre)order, exactly the `NavigableString` descendants
the flattener walks. -/

inductive HNode where
  | text (s : String)
  | tag (name : String) (attrs : List (String × String)) (children : List HNode)

mutual

def node_texts : HNode → List String
  | .text s => [s]
  | .tag _ _ children => doc_texts children

def doc_texts : List HNode → List String
  | [] => []
  | n :: rest => node_texts n ++ doc_texts rest

end

/-- One entry of the `node_infos` list of `_prepare_html_tokens`.  The
Python dict also stores the live node reference; positionally, the `k`-th
entry always refers to the `k`-th nonempty text leaf of the document in
preorder, which is how the injector model addresses it. -/
structure LeafInfo where
  tokens : List String
  start : Nat
  /-- the `"end"` key of the Python dict (`end` is a Lean keyword) -/
  stop : Nat
deriving Repr, DecidableEq

/-- The flattening loop of `_prepare_html_tokens`, over the preorder text
list, threading the running token count (`start_index = len(tokens)`). -/
def prepare_from_texts : List String → Nat → (List String × List LeafInfo)
  | [], _ => ([], [])
  | text :: rest, start =>
    if text = "" then prepare_from_texts rest start
    else
      let parts := tokenize_text text
      if parts.isEmpty then prepare_from_texts rest start
      else
        let tail := prepare_from_texts rest (start + parts.length)
        (parts ++ tail.1, ⟨parts, start, start + parts.length⟩ :: tail.2)

/-- `_prepare_html_tokens` of `main.py` (the parse step is external: the
input is the already-parsed tree). -/
def prepare_html_tokens (doc : List HNode) : List String × List LeafInfo :=
  prepare_from_texts (doc_texts doc) 0

/-- Leaf spans starting at `offset`: in document order, contiguous,
nonempty, each covering exactly its own tokens. -/
def spans_chained : Nat → List LeafInfo → Prop
  | _, [] => True
  | offset, info :: rest =>
    info.start = offset ∧ info.stop = offset + info.tokens.length ∧
      info.tokens ≠ [] ∧ spans_chained info.stop rest

theorem prepare_from_texts_spec (texts : List String) (start : Nat) :
    spans_chained start (prepare_from_texts texts start).2 ∧
      (prepare_from_texts texts start).1 =
        ((prepare_from_texts texts start).2.map LeafInfo.tokens).flatten ∧
      (prepare_from_texts texts start).2.length =
        (texts.filter (· ≠ "")).length := by
  induction texts generalizing start with
  | nil => simp [prepare_from_texts, spans_chained]
  | cons text rest ih =>
    by_cases ht : text = ""
    · simpa [prepare_from_texts, ht] using ih start
    · have hparts : ¬(tokenize_text text).isEmpty := by
        simpa [List.isEmpty_iff] using tokenize_text_ne_nil text ht
      obtain ⟨ih1, ih2, ih3⟩ := ih (start + (tokenize_text text).length)
      refine ⟨?_, ?_, ?_⟩
      · simp only [prepare_from_texts, ht, if_neg, hparts, if_false,
          not_false_eq_true]
        exact ⟨rfl, rfl, by simpa [List.isEmpty_iff] using hparts, ih1⟩
      · simp [prepare_from_texts, ht, hparts, ih2]
      · simp [prepare_from_texts, ht, hparts, ih3, List.filter_cons]

/-- C8 — Flattener span invariant: the leaf spans of
`_prepare_html_tokens` are in document order, contiguous and non-empty
starting at offset 0, each span's width is its token count, the flat token
sequence is exactly the concatenation of the spans' tokens (so the span
token counts sum to its length), and only nonempty text leaves contribute
a span. -/
theorem prepare_html_tokens_span_invariant (doc : List HNode) :
    spans_chained 0 (prepare_html_tokens doc).2 ∧
      (∀ info ∈ (prepare_html_tokens doc).2,
        info.stop - info.start = info.tokens.length ∧ info.tokens ≠ []) ∧
      (prepare_html_tokens doc).1 =
        ((prepare_html_tokens doc).2.map LeafInfo.tokens).flatten ∧
      ((prepare_html_tokens doc).2.map (fun info => info.tokens.length)).sum =
        (prepare_html_tokens doc).1.length ∧
      (prepare_html_tokens doc).2.length =
        ((doc_texts doc).filter (· ≠ "")).length := by
  simp only [prepare_html_tokens]
  obtain ⟨h1, h2, h3⟩ := prepare_from_texts_spec (doc_texts doc) 0
  refine ⟨h1, ?_, h2, ?_, h3⟩
  · have aux : ∀ (offset : Nat) (infos : List LeafInfo), spans_chained offset infos →
        ∀ info ∈ infos, info.stop - info.start = info.tokens.length ∧ info.tokens ≠ [] := by
      intro offset infos
      induction infos generalizing offset with
      | nil => intro _ info h; exact absurd h (List.not_mem_nil info)
      | cons i rest ihr =>
        intro hch info hmem
        obtain ⟨hstart, hstop, hne, hrest⟩ := hch
        rcases List.mem_cons.mp hmem with h | h
        · subst h; exact ⟨by omega, hne⟩
        · exact ihr i.stop hrest info h
    exact aux 0 _ h1
  · rw [h2, List.length_flatten, List.map_map]
    rfl

/-- Witness for C8 at a concrete input: the single leaf span of
`<p>a</p>` covers exactly its one token. -/
theorem prepare_span_invariant_witness :
    (⟨["a"], 0, 1⟩ : LeafInfo).stop - (⟨["a"], 0, 1⟩ : LeafInfo).start =
      (⟨["a"], 0, 1⟩ : LeafInfo).tokens.length ∧
    (⟨["a"], 0, 1⟩ : LeafInfo).tokens ≠ [] :=
  (prepare_html_tokens_span_invariant [HNode.tag "p" [] [HNode.text "a"]]).2.1
    ⟨["a"], 0, 1⟩ (by decide)

/-! ### Aligner: `difflib.SequenceMatcher(None, a, b)`

A faithful model of the CPython 3.11 `difflib` code actually exercised by
`_build_diff`: `__chain_b` (with `isjunk = None`, so `bjunk` is empty and
the two junk-extension loops of `find_longest_match` never fire; autojunk
is on), `find_longest_match`, `get_matching_blocks` and `get_opcodes`.
While-loops are written with an explicit fuel that provably dominates the
number of iterations the Python loop performs. -/

structure DMatch where
  i : Nat
  j : Nat
  size : Nat
deriving Repr, DecidableEq

/-- The ascending list of indices at which `x` occurs in `b` (the raw
`b2j` entry for `x`, built by enumerating `b`). -/
def positions (b : List String) (x : String) : List Nat :=
  (List.range b.length).filter (fun j => b.getD j "" = x)

/-- The autojunk purge of `__chain_b`: with `len(b) >= 200`, elements
occurring more than `len(b) // 100 + 1` times are deleted from `b2j`. -/
def is_popular (b : List String) (x : String) : Bool :=
  decide (200 ≤ b.length) && decide (b.length / 100 + 1 < (positions b x).length)

/-- `b2j.get(a[i], nothing)` as read by `find_longest_match`. -/
def b2j_get (b : List String) (x : String) : List Nat :=
  if is_popular b x then [] else positions b x

structure FlmState where
  besti : Nat
  bestj : Nat
  bestsize : Nat
deriving Repr, DecidableEq

/-- Inner `for j in b2j.get(a[i], nothing)` loop of `find_longest_match`:
`j < blo` is `continue`, `j >= bhi` is `break` (positions are ascending);
`k = newj2len[j] = j2len.get(j-1, 0) + 1` reads the previous row only.
`j - 1` at `j = 0` is Python's `j2len.get(-1, 0) = 0`. -/
def flm_inner (i blo bhi : Nat) (j2len : Nat → Nat) :
    List Nat → (Nat → Nat) → FlmState → ((Nat → Nat) × FlmState)
  | [], newj2len, best => (newj2len, best)
  | j :: js, newj2len, best =>
    if j < blo then flm_inner i blo bhi j2len js newj2len best
    else if bhi ≤ j then (newj2len, best)
    else
      let k := (if j = 0 then 0 else j2len (j - 1)) + 1
      let newj2len' := fun j' => if j' = j then k else newj2len j'
      let best' : FlmState :=
        if best.bestsize < k then ⟨i + 1 - k, j + 1 - k, k⟩ else best
      flm_inner i blo bhi j2len js newj2len' best'

/-- Outer `for i in range(alo, ahi)` loop: each row starts a fresh
`newj2len` and installs it as `j2len` afterwards. -/
def flm_rows (a b : List String) (blo bhi : Nat) :
    List Nat → (Nat → Nat) → FlmState → ((Nat → Nat) × FlmState)
  | [], j2len, best => (j2len, best)
  | i :: is, j2len, best =>
    let r := flm_inner i blo bhi j2len (b2j_get b (a.getD i "")) (fun _ => 0) best
    flm_rows a b blo bhi is r.1 r.2

/-- First extension loop of `find_longest_match` (the non-junk backward
one; `bjunk` is empty).  The fuel dominates the iteration count because
`besti` strictly decreases. -/
def extend_back (a b : List String) (alo blo : Nat) :
    Nat → FlmState → FlmState
  | 0, st => st
  | fuel + 1, st =>
    if alo < st.besti ∧ blo < st.bestj ∧
        a.getD (st.besti - 1) "" = b.getD (st.bestj - 1) "" then
      extend_back a b alo blo fuel ⟨st.besti - 1, st.bestj - 1, st.bestsize + 1⟩
    else st

/-- Second extension loop (the non-junk forward one). -/
def extend_fwd (a b : List String) (ahi bhi : Nat) :
    Nat → FlmState → FlmState
  | 0, st => st
  | fuel + 1, st =>
    if st.besti + st.bestsize < ahi ∧ st.bestj + st.bestsize < bhi ∧
        a.getD (st.besti + st.bestsize) "" = b.getD (st.bestj + st.bestsize) "" then
      extend_fwd a b ahi bhi fuel ⟨st.besti, st.bestj, st.bestsize + 1⟩
    else st

/-- `find_longest_match(alo, ahi, blo, bhi)`.  The two junk-extension
while-loops of the source are identical no-ops here because the engine
always constructs `SequenceMatcher(None, ...)`: `bjunk` is empty. -/
def find_longest_match (a b : List String) (alo ahi blo bhi : Nat) : DMatch :=
  let r := flm_rows a b blo bhi (List.range' alo (ahi - alo)) (fun _ => 0) ⟨alo, blo, 0⟩
  let st := extend_back a b alo blo r.2.besti r.2
  let st := extend_fwd a b ahi bhi ahi st
  ⟨st.besti, st.bestj, st.bestsize⟩

/-- The `get_matching_blocks` queue loop, as in-order recursion.  The
Python version collects matches from a LIFO queue and sorts them at the
end; since every match found in the left sub-window has a strictly
smaller `i` than the current match, which is strictly smaller than every
`i` in the right sub-window, the sorted queue output equals this
recursion's in-order output.  Each level strictly shrinks the window, so
a fuel of total window size + 1 is never exhausted. -/
def matching_blocks_rec (a b : List String) :
    Nat → Nat → Nat → Nat → Nat → List DMatch
  | 0, _, _, _, _ => []
  | fuel + 1, alo, ahi, blo, bhi =>
    let m := find_longest_match a b alo ahi blo bhi
    if m.size = 0 then []
    else
      (if alo < m.i ∧ blo < m.j then
        matching_blocks_rec a b fuel alo m.i blo m.j
      else []) ++
      [m] ++
      (if m.i + m.size < ahi ∧ m.j + m.size < bhi then
        matching_blocks_rec a b fuel (m.i + m.size) ahi (m.j + m.size) bhi
      else [])

/-- The adjacent-block merge loop of `get_matching_blocks`, threading the
pending block `(i1, j1, k1)` (initially `(0, 0, 0)`). -/
def merge_adjacent_loop : (Nat × Nat × Nat) → List DMatch → List DMatch
  | (i1, j1, k1), [] => if k1 ≠ 0 then [⟨i1, j1, k1⟩] else []
  | (i1, j1, k1), m :: rest =>
    if i1 + k1 = m.i ∧ j1 + k1 = m.j then
      merge_adjacent_loop (i1, j1, k1 + m.size) rest
    else
      (if k1 ≠ 0 then [⟨i1, j1, k1⟩] else []) ++
        merge_adjacent_loop (m.i, m.j, m.size) rest

def get_matching_blocks (a b : List String) : List DMatch :=
  let blocks :=
    matching_blocks_rec a b (a.length + b.length + 1) 0 a.length 0 b.length
  merge_adjacent_loop (0, 0, 0) blocks ++ [⟨a.length, b.length, 0⟩]

inductive OpTag where
  | equal
  | insert
  | delete
  | replace
deriving Repr, DecidableEq

structure Opcode where
  tag : OpTag
  i1 : Nat
  i2 : Nat
  j1 : Nat
  j2 : Nat
deriving Repr, DecidableEq

/-- The `get_opcodes` loop over matching blocks. -/
def opcodes_loop : Nat → Nat → List DMatch → List Opcode
  | _, _, [] => []
  | i, j, m :: rest =>
    let front : List Opcode :=
      if i < m.i ∧ j < m.j then [⟨.replace, i, m.i, j, m.j⟩]
      else if i < m.i then [⟨.delete, i, m.i, j, m.j⟩]
      else if j < m.j then [⟨.insert, i, m.i, j, m.j⟩]
      else []
    let eqPart : List Opcode :=
      if m.size ≠ 0 then [⟨.equal, m.i, m.i + m.size, m.j, m.j + m.size⟩] else []
    front ++ eqPart ++ opcodes_loop (m.i + m.size) (m.j + m.size) rest

def get_opcodes (a b : List String) : List Opcode :=
  opcodes_loop 0 0 (get_matching_blocks a b)

/-! #### Matching a sequence against itself

The key fact behind idempotence of the whole diff: `find_longest_match`
on two copies of the same sequence, over the full windows, returns the
whole-sequence match `(0, 0, n)`.  The proof tracks the diagonal of the
dynamic-programming loop: `diag_run a i` is the value the `j2len` chain
takes at the diagonal cell `(i, i)` (the run of consecutive non-popular
elements ending at `i`), and `max_diag a i` the running best over rows
`< i`.  The invariant shows the running best match always lies on the
diagonal, so the extension loops stretch it to the whole sequence. -/

def diag_run (a : List String) : Nat → Nat
  | 0 => if is_popular a (a.getD 0 "") then 0 else 1
  | i + 1 => if is_popular a (a.getD (i + 1) "") then 0 else diag_run a i + 1

def max_diag (a : List String) : Nat → Nat
  | 0 => 0
  | i + 1 => max (max_diag a i) (diag_run a i)

theorem diag_run_le_succ (a : List String) : ∀ i, diag_run a i ≤ i + 1 := by
  intro i
  induction i with
  | zero =>
    rw [diag_run]
    split <;> omega
  | succ i ih =>
    rw [diag_run]
    split <;> omega

theorem diag_run_le_max_diag (a : List String) {j i : Nat} (h : j < i) :
    diag_run a j ≤ max_diag a i := by
  induction i with
  | zero => omega
  | succ i ih =>
    rcases Nat.lt_succ_iff_lt_or_eq.mp h with h' | h'
    · exact le_trans (ih h') (by simp [max_diag])
    · subst h'; simp [max_diag]

theorem diag_run_eq_of_not_popular (a : List String) (i : Nat)
    (h : is_popular a (a.getD i "") = false) :
    diag_run a i = (if i = 0 then 0 else diag_run a (i - 1)) + 1 := by
  cases i with
  | zero =>
    rw [diag_run, h]
    simp
  | succ i =>
    rw [diag_run, h]
    simp

theorem mem_positions (b : List String) (x : String) (j : Nat) :
    j ∈ positions b x ↔ j < b.length ∧ b.getD j "" = x := by
  simp [positions, List.mem_filter]

theorem positions_sorted (b : List String) (x : String) :
    (positions b x).Pairwise (· < ·) :=
  List.Pairwise.filter _ (List.pairwise_lt_range b.length)

theorem mem_b2j_get (b : List String) (x : String) (j : Nat)
    (h : j ∈ b2j_get b x) :
    j < b.length ∧ b.getD j "" = x ∧ is_popular b x = false := by
  unfold b2j_get at h
  by_cases hp : is_popular b x
  · simp [hp] at h
  · simp only [hp, if_false, Bool.false_eq_true, not_false_eq_true] at h
    have := (mem_positions b x j).mp (by simpa using h)
    exact ⟨this.1, this.2, by simpa using hp⟩

theorem b2j_get_sorted (b : List String) (x : String) :
    (b2j_get b x).Pairwise (· < ·) := by
  unfold b2j_get
  by_cases hp : is_popular b x
  · simp [hp]
  · simpa [hp] using positions_sorted b x

theorem self_mem_b2j_get (a : List String) (i : Nat) (hi : i < a.length)
    (hp : is_popular a (a.getD i "") = false) :
    i ∈ b2j_get a (a.getD i "") := by
  unfold b2j_get
  simp only [hp, Bool.false_eq_true, if_false]
  exact (mem_positions a _ i).mpr ⟨hi, rfl⟩

/-- Unfolding of one non-skipped, non-breaking step of the inner loop. -/
theorem flm_inner_cons_step (i blo bhi : Nat) (j2len : Nat → Nat) (j : Nat)
    (js : List Nat) (newj2len : Nat → Nat) (best : FlmState)
    (h1 : ¬j < blo) (h2 : ¬bhi ≤ j) :
    flm_inner i blo bhi j2len (j :: js) newj2len best =
      flm_inner i blo bhi j2len js
        (fun j' => if j' = j then (if j = 0 then 0 else j2len (j - 1)) + 1
          else newj2len j')
        (if best.bestsize < (if j = 0 then 0 else j2len (j - 1)) + 1 then
          ⟨i + 1 - ((if j = 0 then 0 else j2len (j - 1)) + 1),
           j + 1 - ((if j = 0 then 0 else j2len (j - 1)) + 1),
           (if j = 0 then 0 else j2len (j - 1)) + 1⟩
        else best) := by
  conv_lhs => rw [flm_inner]
  rw [if_neg h1, if_neg h2]

/-- One row of the DP loop, diffing `a` against itself over the full
windows.  The running best stays on the diagonal; its size is sandwiched
between `max_diag a i` and `max (max_diag a i) (diag_run a i)` and ends up
at least `diag_run a i`; the fresh `newj2len` is exact on the diagonal and
dominated by `diag_run` pointwise and by `diag_run a i` uniformly. -/
theorem flm_inner_self (a : List String) (i : Nat) (old : Nat → Nat)
    (hold1 : ∀ j, old j ≤ diag_run a j)
    (hold2 : ∀ j, old j ≤ (if i = 0 then 0 else diag_run a (i - 1)))
    (hold3 : i = 0 ∨ old (i - 1) = diag_run a (i - 1)) :
    ∀ (rem : List Nat) (new : Nat → Nat) (best : FlmState),
      (∀ j ∈ rem, j < a.length ∧ a.getD j "" = a.getD i "" ∧
        is_popular a (a.getD i "") = false) →
      rem.Pairwise (· < ·) →
      best.besti = best.bestj →
      best.besti + best.bestsize ≤ a.length →
      max_diag a i ≤ best.bestsize →
      best.bestsize ≤ max (max_diag a i) (diag_run a i) →
      (i ∈ rem ∨ diag_run a i ≤ best.bestsize) →
      (∀ j, new j ≤ diag_run a j) →
      (∀ j, new j ≤ diag_run a i) →
      (i ∈ rem ∨ new i = diag_run a i) →
      (flm_inner i 0 a.length old rem new best).2.besti =
        (flm_inner i 0 a.length old rem new best).2.bestj ∧
      (flm_inner i 0 a.length old rem new best).2.besti +
        (flm_inner i 0 a.length old rem new best).2.bestsize ≤ a.length ∧
      max_diag a i ≤ (flm_inner i 0 a.length old rem new best).2.bestsize ∧
      (flm_inner i 0 a.length old rem new best).2.bestsize ≤
        max (max_diag a i) (diag_run a i) ∧
      diag_run a i ≤ (flm_inner i 0 a.length old rem new best).2.bestsize ∧
      (∀ j, (flm_inner i 0 a.length old rem new best).1 j ≤ diag_run a j) ∧
      (∀ j, (flm_inner i 0 a.length old rem new best).1 j ≤ diag_run a i) ∧
      (flm_inner i 0 a.length old rem new best).1 i = diag_run a i := by
  intro rem
  induction rem with
  | nil =>
    intro new best _ _ hdiag hsum hlow hhigh hdisj hnew1 hnew2 hdisj2
    simp only [flm_inner]
    refine ⟨hdiag, hsum, hlow, hhigh, ?_, hnew1, hnew2, ?_⟩
    · rcases hdisj with h | h
      · exact absurd h (List.not_mem_nil i)
      · exact h
    · rcases hdisj2 with h | h
      · exact absurd h (List.not_mem_nil i)
      · exact h
  | cons j rest ih =>
    intro new best hvalid hsorted hdiag hsum hlow hhigh hdisj hnew1 hnew2 hdisj2
    obtain ⟨hj, hgd, hpop⟩ := hvalid j (List.mem_cons_self j rest)
    have hvrest : ∀ x ∈ rest, x < a.length ∧ a.getD x "" = a.getD i "" ∧
        is_popular a (a.getD i "") = false :=
      fun x hx => hvalid x (List.mem_cons_of_mem j hx)
    have hsrest : rest.Pairwise (· < ·) := hsorted.of_cons
    have hjlt : ∀ x ∈ rest, j < x := fun x hx => List.rel_of_pairwise_cons hsorted hx
    have popj : is_popular a (a.getD j "") = false := by rw [hgd]; exact hpop
    have dj_eq := diag_run_eq_of_not_popular a j popj
    have di_eq := diag_run_eq_of_not_popular a i hpop
    have hstep := flm_inner_cons_step i 0 a.length old j rest new best
      (Nat.not_lt_zero j) (by omega)
    set k := (if j = 0 then 0 else old (j - 1)) + 1 with hk
    have kb1 : k ≤ diag_run a j := by
      rw [dj_eq, hk]
      by_cases h0 : j = 0
      · simp [h0]
      · simp only [h0, if_false]
        have := hold1 (j - 1)
        omega
    have kb2 : k ≤ diag_run a i := by
      rw [di_eq, hk]
      by_cases h0 : j = 0
      · simp only [h0, if_true]
        omega
      · simp only [h0, if_false]
        have := hold2 (j - 1)
        omega
    rcases Nat.lt_trichotomy j i with hji | hji | hji
    · -- j left of the diagonal: k ≤ max_diag a i ≤ bestsize, no best update
      have hkle : k ≤ best.bestsize :=
        le_trans (le_trans kb1 (diag_run_le_max_diag a hji)) hlow
      rw [hstep, if_neg (by omega)]
      refine ih _ _ hvrest hsrest hdiag hsum hlow hhigh ?_ ?_ ?_ ?_
      · rcases hdisj with h | h
        · rcases List.mem_cons.mp h with h' | h'
          · exact absurd h' (by omega)
          · exact Or.inl h'
        · exact Or.inr h
      · intro j'
        by_cases h' : j' = j
        · subst h'; simpa using kb1
        · simpa [h'] using hnew1 j'
      · intro j'
        by_cases h' : j' = j
        · subst h'; simpa using kb2
        · simpa [h'] using hnew2 j'
      · rcases hdisj2 with h | h
        · rcases List.mem_cons.mp h with h' | h'
          · exact absurd h' (by omega)
          · exact Or.inl h'
        · refine Or.inr ?_
          have hne : i ≠ j := by omega
          simpa [hne] using h
    · -- the diagonal step: k is exactly diag_run a i
      subst hji
      have kd : k = diag_run a j := by
        rw [di_eq, hk]
        by_cases h0 : j = 0
        · simp [h0]
        · simp only [h0, if_false]
          rcases hold3 with h | h
          · omega
          · rw [h]
      have hinotin : j ∉ rest := by
        intro h
        exact absurd (hjlt _ h) (lt_irrefl _)
      by_cases hup : best.bestsize < k
      · rw [hstep, if_pos hup]
        refine ih _ _ hvrest hsrest rfl ?_ ?_ ?_ (Or.inr ?_) ?_ ?_ (Or.inr ?_)
        · have h1 : k ≤ j + 1 := by rw [kd]; exact diag_run_le_succ a j
          dsimp only
          omega
        · dsimp only
          omega
        · dsimp only
          rw [kd]
          exact le_max_right _ _
        · dsimp only
          omega
        · intro j'
          by_cases h' : j' = j
          · subst h'; simp [kd]
          · simpa [h'] using hnew1 j'
        · intro j'
          by_cases h' : j' = j
          · subst h'; simpa using kb2
          · simpa [h'] using hnew2 j'
        · simpa using kd
      · rw [hstep, if_neg hup]
        refine ih _ _ hvrest hsrest hdiag hsum hlow hhigh (Or.inr (by omega))
          ?_ ?_ (Or.inr ?_)
        · intro j'
          by_cases h' : j' = j
          · subst h'; simp [kd]
          · simpa [h'] using hnew1 j'
        · intro j'
          by_cases h' : j' = j
          · subst h'; simpa using kb2
          · simpa [h'] using hnew2 j'
        · simpa using kd
    · -- j right of the diagonal: the diagonal was already processed
      have hinotin : i ∉ rest := fun h => absurd (hjlt _ h) (by omega)
      have hDle : diag_run a i ≤ best.bestsize := by
        rcases hdisj with h | h
        · rcases List.mem_cons.mp h with h' | h'
          · exact absurd h' (by omega)
          · exact absurd h' hinotin
        · exact h
      have hnewi : new i = diag_run a i := by
        rcases hdisj2 with h | h
        · rcases List.mem_cons.mp h with h' | h'
          · exact absurd h' (by omega)
          · exact absurd h' hinotin
        · exact h
      rw [hstep, if_neg (by have := le_trans kb2 hDle; omega)]
      refine ih _ _ hvrest hsrest hdiag hsum hlow hhigh (Or.inr hDle)
        ?_ ?_ (Or.inr ?_)
      · intro j'
        by_cases h' : j' = j
        · subst h'; simpa using kb1
        · simpa [h'] using hnew1 j'
      · intro j'
        by_cases h' : j' = j
        · subst h'; simpa using kb2
        · simpa [h'] using hnew2 j'
      · have hne : i ≠ j := by omega
        simpa [hne] using hnewi

theorem diag_run_eq_zero_of_popular (a : List String) (i : Nat)
    (h : is_popular a (a.getD i "") = true) : diag_run a i = 0 := by
  cases i with
  | zero => rw [diag_run, h]; simp
  | succ i => rw [diag_run, h]; simp

/-- The full outer loop on `a` against itself: after all rows the best
match is diagonal, fits inside the sequence, and its size is
`max_diag a a.length`. -/
theorem flm_rows_self (a : List String) :
    ∀ (cnt i : Nat) (old : Nat → Nat) (best : FlmState),
      i + cnt = a.length →
      (∀ j, old j ≤ diag_run a j) →
      (∀ j, old j ≤ (if i = 0 then 0 else diag_run a (i - 1))) →
      (i = 0 ∨ old (i - 1) = diag_run a (i - 1)) →
      best.besti = best.bestj →
      best.besti + best.bestsize ≤ a.length →
      best.bestsize = max_diag a i →
      (flm_rows a a 0 a.length (List.range' i cnt) old best).2.besti =
        (flm_rows a a 0 a.length (List.range' i cnt) old best).2.bestj ∧
      (flm_rows a a 0 a.length (List.range' i cnt) old best).2.besti +
        (flm_rows a a 0 a.length (List.range' i cnt) old best).2.bestsize ≤
          a.length ∧
      (flm_rows a a 0 a.length (List.range' i cnt) old best).2.bestsize =
        max_diag a a.length := by
  intro cnt
  induction cnt with
  | zero =>
    intro i old best hcnt _ _ _ hdiag hsum hsize
    have hi : i = a.length := by omega
    subst hi
    simpa [flm_rows] using ⟨hdiag, hsum, hsize⟩
  | succ cnt ih =>
    intro i old best hcnt hold1 hold2 hold3 hdiag hsum hsize
    have hi : i < a.length := by omega
    rw [List.range'_succ]
    simp only [flm_rows]
    by_cases hpop : is_popular a (a.getD i "") = true
    · -- popular element: empty b2j entry, row is a no-op
      have hjs : b2j_get a (a.getD i "") = [] := by
        unfold b2j_get
        rw [if_pos hpop]
      rw [hjs]
      simp only [flm_inner]
      have hD0 : diag_run a i = 0 := diag_run_eq_zero_of_popular a i hpop
      refine ih (i + 1) _ _ (by omega) (fun j => Nat.zero_le _) ?_ ?_
        hdiag hsum ?_
      · intro j
        exact Nat.zero_le _
      · right
        simpa using hD0.symm
      · rw [hsize, max_diag]
        rw [hD0]
        simp
    · have hpop' : is_popular a (a.getD i "") = false := by
        simpa using hpop
      have hmem : i ∈ b2j_get a (a.getD i "") := self_mem_b2j_get a i hi hpop'
      have hres := flm_inner_self a i old hold1 hold2 hold3
        (b2j_get a (a.getD i "")) (fun _ => 0) best
        (fun j hj => by
          obtain ⟨h1, h2, h3⟩ := mem_b2j_get a _ j hj
          exact ⟨h1, h2, h3⟩)
        (b2j_get_sorted a _) hdiag hsum (le_of_eq hsize.symm)
        (hsize ▸ le_max_left _ _) (Or.inl hmem)
        (fun j => Nat.zero_le _) (fun j => Nat.zero_le _) (Or.inl hmem)
      obtain ⟨r1, r2, r3, r4, r5, r6, r7, r8⟩ := hres
      refine ih (i + 1) _ _ (by omega) r6 ?_ ?_ r1 r2 ?_
      · intro j
        simpa using r7 j
      · right
        simpa using r8
      · rw [max_diag]
        rw [← hsize]
        omega

/-- Backward extension of a diagonal match on `a` against itself reaches
the start of the sequence. -/
theorem extend_back_self (a : List String) :
    ∀ (fuel d s : Nat), d ≤ fuel →
      extend_back a a 0 0 fuel ⟨d, d, s⟩ = ⟨0, 0, s + d⟩ := by
  intro fuel
  induction fuel with
  | zero =>
    intro d s hd
    have hd0 : d = 0 := by omega
    subst hd0
    rw [extend_back]
    simp
  | succ fuel ih =>
    intro d s hd
    cases d with
    | zero =>
      rw [extend_back, if_neg (by simp)]
      simp
    | succ d' =>
      rw [extend_back, if_pos ⟨Nat.succ_pos d', Nat.succ_pos d', rfl⟩]
      have heq : (⟨d' + 1 - 1, d' + 1 - 1, s + 1⟩ : FlmState) = ⟨d', d', s + 1⟩ := by
        simp
      rw [heq, ih d' (s + 1) (by omega)]
      have : s + 1 + d' = s + (d' + 1) := by omega
      rw [this]

/-- Forward extension of a start-anchored diagonal match on `a` against
itself reaches the end of the sequence. -/
theorem extend_fwd_self (a : List String) :
    ∀ (fuel s : Nat), a.length ≤ s + fuel → s ≤ a.length →
      extend_fwd a a a.length a.length fuel ⟨0, 0, s⟩ = ⟨0, 0, a.length⟩ := by
  intro fuel
  induction fuel with
  | zero =>
    intro s h1 h2
    have hs : s = a.length := by omega
    subst hs
    rw [extend_fwd]
  | succ fuel ih =>
    intro s h1 h2
    by_cases hs : s < a.length
    · rw [extend_fwd, if_pos ⟨by simpa using hs, by simpa using hs, rfl⟩]
      exact ih (s + 1) (by omega) (by omega)
    · have hs' : s = a.length := by omega
      subst hs'
      rw [extend_fwd, if_neg (by simp)]

/-- `find_longest_match` over the full windows of `a` against itself
returns the whole-sequence match. -/
theorem find_longest_match_self (a : List String) :
    find_longest_match a a 0 a.length 0 a.length = ⟨0, 0, a.length⟩ := by
  obtain ⟨r1, r2, r3⟩ := flm_rows_self a a.length 0 (fun _ => 0) ⟨0, 0, 0⟩
    (by omega) (fun j => Nat.zero_le _) (fun j => Nat.zero_le _) (Or.inl rfl)
    rfl (by simp) (by rw [max_diag])
  unfold find_longest_match
  dsimp only
  simp only [Nat.sub_zero]
  rcases hst : (flm_rows a a 0 a.length (List.range' 0 a.length)
      (fun _ => 0) ⟨0, 0, 0⟩).2 with ⟨bi, bj, bs⟩
  rw [hst] at r1 r2 r3
  dsimp only at r1 r2 r3
  subst r1
  dsimp only
  rw [extend_back_self a bi bi bs (le_refl bi)]
  rw [extend_fwd_self a a.length (bs + bi) (by omega) (by omega)]

theorem get_matching_blocks_self (a : List String) :
    get_matching_blocks a a =
      (if a.length = 0 then [] else [⟨0, 0, a.length⟩]) ++
        [⟨a.length, a.length, 0⟩] := by
  unfold get_matching_blocks
  simp only [matching_blocks_rec, find_longest_match_self]
  by_cases hn : a.length = 0
  · simp [hn, merge_adjacent_loop]
  · simp [hn, merge_adjacent_loop]

/-- Diffing a token sequence against itself yields no opcode other than a
single `equal` covering everything (or nothing at all when empty). -/
theorem get_opcodes_self (a : List String) :
    get_opcodes a a =
      if a.length = 0 then [] else [⟨.equal, 0, a.length, 0, a.length⟩] := by
  unfold get_opcodes
  rw [get_matching_blocks_self]
  by_cases hn : a.length = 0
  · simp [hn, opcodes_loop]
  · simp [hn, opcodes_loop]

theorem flm_rows_nil_b (a : List String) (blo bhi : Nat) :
    ∀ (rows : List Nat) (j2len : Nat → Nat) (best : FlmState),
      (flm_rows a [] blo bhi rows j2len best).2 = best := by
  intro rows
  induction rows with
  | nil => intro j2len best; rfl
  | cons i is ih =>
    intro j2len best
    have hb : b2j_get [] (a.getD i "") = [] := rfl
    simp only [flm_rows, hb, flm_inner]
    exact ih _ _

theorem extend_fwd_stuck (a b : List String) (ahi : Nat) :
    ∀ (fuel : Nat) (st : FlmState), extend_fwd a b ahi 0 fuel st = st := by
  intro fuel
  cases fuel with
  | zero => intro st; rfl
  | succ fuel =>
    intro st
    rw [extend_fwd, if_neg (fun h => absurd h.2.1 (by omega))]

/-- An empty original side produces exactly one `insert` opcode covering
all of the modified tokens (no opcodes when both are empty). -/
theorem get_opcodes_nil_left (b : List String) :
    get_opcodes [] b =
      if b.length = 0 then [] else [⟨.insert, 0, 0, 0, b.length⟩] := by
  have hflm : find_longest_match [] b 0 0 0 b.length = ⟨0, 0, 0⟩ := rfl
  unfold get_opcodes get_matching_blocks
  simp only [List.length_nil, Nat.zero_add, matching_blocks_rec, hflm]
  by_cases hn : b.length = 0
  · simp [hn, merge_adjacent_loop, opcodes_loop]
  · simp [hn, merge_adjacent_loop, opcodes_loop]

/-- An empty modified side produces exactly one `delete` opcode covering
all of the original tokens (no opcodes when both are empty). -/
theorem get_opcodes_nil_right (a : List String) :
    get_opcodes a [] =
      if a.length = 0 then [] else [⟨.delete, 0, a.length, 0, 0⟩] := by
  have hflm : find_longest_match a [] 0 a.length 0 0 = ⟨0, 0, 0⟩ := by
    unfold find_longest_match
    dsimp only
    rw [flm_rows_nil_b]
    dsimp only
    rw [show extend_back a [] 0 0 0 ⟨0, 0, 0⟩ = ⟨0, 0, 0⟩ from rfl]
    rw [extend_fwd_stuck]
  unfold get_opcodes get_matching_blocks
  simp only [List.length_nil, Nat.add_zero, matching_blocks_rec, hflm]
  by_cases hn : a.length = 0
  · simp [hn, merge_adjacent_loop, opcodes_loop]
  · simp [hn, merge_adjacent_loop, opcodes_loop]

/-! ### Engine data model (`DiffStats`, `DiffLocation`, `DiffItem`) -/

structure DiffStats where
  inserted_tokens : Nat
  deleted_tokens : Nat
  replaced_tokens : Nat
deriving Repr, DecidableEq

structure DiffLocation where
  section_title : Option String
  block_summary : Option String
deriving Repr, DecidableEq

structure DiffItem where
  id : String
  type : String
  original_text : String
  modified_text : String
  original_location : Option DiffLocation
  modified_location : Option DiffLocation
deriving Repr, DecidableEq

/-- The `DIFF_TYPE_LABELS` dict, read only at its three keys. -/
def DIFF_TYPE_LABELS (t : String) : String :=
  if t = "insert" then "新增"
  else if t = "delete" then "删除"
  else if t = "replace" then "修改"
  else ""

/-- One highlight-entry dict of `_build_diff`'s `highlight_map`.  All
entries the classifier builds carry every key; `placeholder` is only ever
set `True` (absence is modelled as `false`), `stop` is the `"end"` key. -/
structure HighlightEntry where
  id : String
  type : String
  role : String
  start : Nat
  stop : Nat
  label : Option String
  number : Option Nat
  placeholder : Bool
deriving Repr, DecidableEq

def default_entry : HighlightEntry := ⟨"", "", "", 0, 0, none, none, false⟩

/-! ### Small string helpers of `main.py` -/

/-- `html.escape(token)` (with quotes, the default). -/
def html_escape_char (c : Char) : String :=
  if c = '&' then "&amp;"
  else if c = '<' then "&lt;"
  else if c = '>' then "&gt;"
  else if c = '"' then "&quot;"
  else if c = '\x27' then "&#x27;"
  else String.singleton c

def html_escape (s : String) : String :=
  join_tokens (s.data.map html_escape_char)

/-- `_escape_tokens` of `main.py`. -/
def escape_tokens (tokens : List String) : String :=
  join_tokens (tokens.map html_escape)

/-- `_truncate_text` of `main.py` (`len`/slicing count codepoints, as in
Python). -/
def truncate_text (value : String) (limit : Nat := 80) : String :=
  if value.length ≤ limit then value
  else String.mk (value.data.take (limit - 1)) ++ "…"

/-- Python `str.strip()` (whitespace strip on both ends). -/
def py_strip (s : String) : String :=
  String.mk (((s.data.dropWhile pyIsSpace).reverse.dropWhile pyIsSpace).reverse)

/-- BeautifulSoup `node.get_text(" ", strip=True)`: strip every descendant
string, drop the empty ones, join with a single space. -/
def get_text_sep_strip (n : HNode) : String :=
  String.intercalate " " (((node_texts n).map py_strip).filter (· ≠ ""))

/-! ### Location resolver (`_find_block_node`, `_summarize_location`)

BeautifulSoup node navigation (`parent`, `find_previous`) is modelled by
paths into the rooted tree: the soup object itself is the root tag
`[document]` at path `[]`, exactly how BeautifulSoup reports it.
`find_previous(names)` scans the preorder (document-order) node list
strictly before the anchor, backwards. -/

def heading_tags : List String := ["h1", "h2", "h3", "h4", "h5", "h6"]

def block_tag_names : List String :=
  ["p", "li", "td", "th", "caption", "blockquote",
   "h1", "h2", "h3", "h4", "h5", "h6", "pre", "code", "div"]

mutual

def preorder_nodes : List Nat → HNode → List (List Nat × HNode)
  | path, .text s => [(path, .text s)]
  | path, .tag name attrs children =>
    (path, .tag name attrs children) :: preorder_children path 0 children

def preorder_children : List Nat → Nat → List HNode → List (List Nat × HNode)
  | _, _, [] => []
  | path, idx, n :: rest =>
    preorder_nodes (path ++ [idx]) n ++ preorder_children path (idx + 1) rest

end

/-- Preorder of the rooted document: the `[document]` root first, then
all its descendants in document order. -/
def doc_preorder (doc : List HNode) : List (List Nat × HNode) :=
  ([], HNode.tag "[document]" [] doc) :: preorder_children [] 0 doc

def find_by_path (entries : List (List Nat × HNode)) (p : List Nat) :
    Option HNode :=
  (entries.find? (fun e => e.1 = p)).map (·.2)

/-- Proper prefixes of a path, deepest (parent) first — the ancestor
chain `node.parent`, `node.parent.parent`, … ending at the root `[]`. -/
def ancestors_paths (p : List Nat) : List (List Nat) :=
  (List.range p.length).reverse.map (fun k => p.take k)

/-- `_find_block_node`: nearest ancestor whose tag name is block-level.
The `[document]` root is not a block tag, so reaching it yields `none`. -/
def find_block_path (pre : List (List Nat × HNode)) (leafPath : List Nat) :
    Option (List Nat) :=
  (ancestors_paths leafPath).find? (fun q =>
    match find_by_path pre q with
    | some (.tag name _ _) => name ∈ block_tag_names
    | _ => false)

/-- `anchor.find_previous(heading_tags)`: the last heading tag strictly
before the anchor in document order. -/
def find_previous_heading (pre : List (List Nat × HNode))
    (anchor : List Nat) : Option HNode :=
  match pre.findIdx? (fun e => e.1 = anchor) with
  | none => none
  | some k =>
    ((pre.take k).reverse.find? (fun e =>
      match e.2 with
      | .tag name _ _ => name ∈ heading_tags
      | _ => false)).map (·.2)

/-- Paths of the nonempty text leaves in document order — the nodes the
`node_infos` entries of `_prepare_html_tokens` point at, positionally. -/
def nonempty_text_leaf_paths (doc : List HNode) : List (List Nat) :=
  (doc_preorder doc).filterMap (fun e =>
    match e.2 with
    | .text s => if s ≠ "" then some e.1 else none
    | _ => none)

def find_last_start_le (infos : List LeafInfo) (idx : Nat) : Option Nat :=
  (List.range infos.length).reverse.find?
    (fun k => decide ((infos.getD k ⟨[], 0, 0⟩).start ≤ idx))

/-- `_summarize_location` of `main.py`.  The target leaf is resolved in
the Python order: containing span, then span containing `start_index-1`,
then the last span starting at or before `start_index`.  The
`isinstance(node, NavigableString)` guard always holds for nodes the
flattener recorded, and a text leaf's `parent` always exists (at minimum
the soup itself), so the `soup.find(heading_tags)` branch for a missing
anchor is unreachable; the defensive `none` below mirrors the guard. -/
def summarize_location (doc : List HNode) (node_infos : List LeafInfo)
    (start_index : Nat) : Option DiffLocation :=
  if node_infos.isEmpty then none
  else
    let t1 := node_infos.findIdx? (fun info =>
      decide (info.start ≤ start_index) && decide (start_index < info.stop))
    let t2 := match t1 with
      | some k => some k
      | none =>
        if 0 < start_index then
          node_infos.findIdx? (fun info =>
            decide (info.start ≤ start_index - 1) &&
              decide (start_index - 1 < info.stop))
        else none
    let t3 := match t2 with
      | some k => some k
      | none => find_last_start_le node_infos start_index
    match t3 with
    | none => none
    | some k =>
      match (nonempty_text_leaf_paths doc).getD k [] with
      | leafPath =>
        let pre := doc_preorder doc
        let blockPath := find_block_path pre leafPath
        let block_summary : Option String :=
          match blockPath with
          | some bp =>
            match find_by_path pre bp with
            | some bnode =>
              let t := get_text_sep_strip bnode
              if t ≠ "" then some (truncate_text t 80) else none
            | none => none
          | none => none
        let anchorPath := match blockPath with
          | some bp => bp
          | none => leafPath.dropLast
        let heading : Option HNode :=
          match find_by_path pre anchorPath with
          | some (.tag name attrs children) =>
            if name ∈ heading_tags then some (.tag name attrs children)
            else find_previous_heading pre anchorPath
          | _ => find_previous_heading pre anchorPath
        let section_title : Option String :=
          match heading with
          | some h =>
            let t := get_text_sep_strip h
            if t ≠ "" then some (truncate_text t 60) else none
          | none => none
        if section_title.isNone ∧ block_summary.isNone then none
        else some ⟨section_title, block_summary⟩

/-! ### Diff classifier (the opcode loop of `_build_diff`) -/

/-- Python list slice `tokens[i1:i2]` for `i1 ≤ i2`. -/
def token_slice (tokens : List String) (i1 i2 : Nat) : List String :=
  (tokens.drop i1).take (i2 - i1)

/-- The loop state of `_build_diff`: the accumulated legacy `diff_parts`,
the three stat counters, the emitted `diff_items`, the two per-side
highlight lists, and the shared id counter `diff_index` (starting at 1). -/
structure BuildState where
  diff_parts : List String
  inserted_tokens : Nat
  deleted_tokens : Nat
  replaced_tokens : Nat
  diff_items : List DiffItem
  highlights_original : List HighlightEntry
  highlights_modified : List HighlightEntry
  diff_index : Nat
deriving Repr, DecidableEq

def initial_build_state : BuildState := ⟨[], 0, 0, 0, [], [], [], 1⟩

/-- One iteration of `for tag, i1, i2, j1, j2 in matcher.get_opcodes()`. -/
def classify_step (original_doc modified_doc : List HNode)
    (original_infos modified_infos : List LeafInfo)
    (original_tokens modified_tokens : List String)
    (st : BuildState) (op : Opcode) : BuildState :=
  match op.tag with
  | .equal =>
    { st with diff_parts :=
        st.diff_parts ++ [escape_tokens (token_slice original_tokens op.i1 op.i2)] }
  | .insert =>
    if op.j1 = op.j2 then st
    else
      let diff_number := st.diff_index
      let diff_id := "diff-" ++ toString diff_number
      let inserted_raw := join_tokens (token_slice modified_tokens op.j1 op.j2)
      let inserted_escaped := escape_tokens (token_slice modified_tokens op.j1 op.j2)
      let modified_location := summarize_location modified_doc modified_infos op.j1
      { st with
        diff_index := st.diff_index + 1
        inserted_tokens := st.inserted_tokens + (op.j2 - op.j1)
        diff_parts := st.diff_parts ++
          ["<ins class=\"diff-insert\" data-diff-id=\"" ++ diff_id ++ "\">" ++
            inserted_escaped ++ "</ins>"]
        diff_items := st.diff_items ++
          [⟨diff_id, "insert", "", inserted_raw, none, modified_location⟩]
        highlights_original := st.highlights_original ++
          [⟨diff_id, "insert", "original", op.i1, op.i1,
            some (DIFF_TYPE_LABELS "insert"), some diff_number, true⟩]
        highlights_modified := st.highlights_modified ++
          [⟨diff_id, "insert", "modified", op.j1, op.j2,
            some (DIFF_TYPE_LABELS "insert"), some diff_number, false⟩] }
  | .delete =>
    if op.i1 = op.i2 then st
    else
      let diff_number := st.diff_index
      let diff_id := "diff-" ++ toString diff_number
      let deleted_raw := join_tokens (token_slice original_tokens op.i1 op.i2)
      let deleted_escaped := escape_tokens (token_slice original_tokens op.i1 op.i2)
      let original_location := summarize_location original_doc original_infos op.i1
      -- the modified-side location index is clamped to the last valid
      -- token index; the highlight entry offset below is not
      let modified_location := summarize_location modified_doc modified_infos
        (if op.j1 < modified_tokens.length then op.j1
         else modified_tokens.length - 1)
      { st with
        diff_index := st.diff_index + 1
        deleted_tokens := st.deleted_tokens + (op.i2 - op.i1)
        diff_parts := st.diff_parts ++
          ["<del class=\"diff-delete\" data-diff-id=\"" ++ diff_id ++ "\">" ++
            deleted_escaped ++ "</del>"]
        diff_items := st.diff_items ++
          [⟨diff_id, "delete", deleted_raw, "", original_location,
            modified_location⟩]
        highlights_original := st.highlights_original ++
          [⟨diff_id, "delete", "original", op.i1, op.i2,
            some (DIFF_TYPE_LABELS "delete"), some diff_number, false⟩]
        highlights_modified := st.highlights_modified ++
          [⟨diff_id, "delete", "modified", op.j1, op.j1,
            some (DIFF_TYPE_LABELS "delete"), some diff_number, true⟩] }
  | .replace =>
    if op.i1 = op.i2 ∧ op.j1 = op.j2 then st
    else
      let diff_number := st.diff_index
      let diff_id := "diff-" ++ toString diff_number
      let removed_raw := join_tokens (token_slice original_tokens op.i1 op.i2)
      let added_raw := join_tokens (token_slice modified_tokens op.j1 op.j2)
      let removed_escaped := escape_tokens (token_slice original_tokens op.i1 op.i2)
      let added_escaped := escape_tokens (token_slice modified_tokens op.j1 op.j2)
      let original_location := summarize_location original_doc original_infos op.i1
      let modified_location := summarize_location modified_doc modified_infos op.j1
      { st with
        diff_index := st.diff_index + 1
        replaced_tokens := st.replaced_tokens + max (op.i2 - op.i1) (op.j2 - op.j1)
        diff_parts := st.diff_parts ++
          (if op.i1 ≠ op.i2 then
            ["<del class=\"diff-delete\" data-diff-id=\"" ++ diff_id ++ "\">" ++
              removed_escaped ++ "</del>"]
          else []) ++
          (if op.j1 ≠ op.j2 then
            ["<ins class=\"diff-insert\" data-diff-id=\"" ++ diff_id ++ "\">" ++
              added_escaped ++ "</ins>"]
          else [])
        diff_items := st.diff_items ++
          [⟨diff_id, "replace", removed_raw, added_raw, original_location,
            modified_location⟩]
        highlights_original := st.highlights_original ++
          (if op.i1 ≠ op.i2 then
            [⟨diff_id, "replace", "original", op.i1, op.i2,
              some (DIFF_TYPE_LABELS "replace"), some diff_number, false⟩]
          else [])
        highlights_modified := st.highlights_modified ++
          (if op.j1 ≠ op.j2 then
            [⟨diff_id, "replace", "modified", op.j1, op.j2,
              some (DIFF_TYPE_LABELS "replace"), some diff_number, false⟩]
          else []) }

def classify_opcodes (original_doc modified_doc : List HNode)
    (original_infos modified_infos : List LeafInfo)
    (original_tokens modified_tokens : List String)
    (ops : List Opcode) : BuildState :=
  ops.foldl
    (classify_step original_doc modified_doc original_infos modified_infos
      original_tokens modified_tokens)
    initial_build_state

/-! ### Highlight injector (`_create_marker_tag`, `_apply_highlights`)

The Python function mutates the soup in place and serializes it; here the
mutation is a rebuild: each nonempty text leaf (in document order, the
node the same-ranked `node_infos` entry holds) is replaced by its fragment
list.  Dict/object identity of highlight entries (`entry is not
current_entry`) is modelled by the entry's index in the span list: every
span entry is a distinct Python dict object. -/

/-- `_create_marker_tag`: attribute insertion order is preserved by the
serializer, as BeautifulSoup does. -/
def create_marker_tag (entry : HighlightEntry) (text : String) : HNode :=
  let classes := ["diff-marker", "diff-marker--" ++ entry.type,
    "diff-marker--" ++ entry.role] ++
    (if entry.placeholder then ["diff-marker--placeholder"]
     else ["diff-marker--with-pill"])
  let label_attrs := match entry.label with
    | some l => if l ≠ "" then [("data-diff-type-label", l)] else []
    | none => []
  let number_attrs := match entry.number with
    | some n => [("data-diff-number", toString n)]
    | none => []
  let title_attrs := match entry.label, entry.number with
    | some l, some n => if l ≠ "" then [("title", l ++ " #" ++ toString n)] else []
    | _, _ => []
  let placeholder_attrs :=
    if entry.placeholder then [("data-diff-placeholder", "true")] else []
  HNode.tag "span"
    ([("class", String.intercalate " " classes),
      ("data-diff-id", entry.id),
      ("data-diff-type", entry.type),
      ("data-diff-role", entry.role)] ++
      label_attrs ++ number_attrs ++ title_attrs ++ placeholder_attrs)
    [HNode.text text]

/-- The `boundary_highlights` buckets: a `defaultdict(list)` keyed by
offset, keys in first-insertion order, each bucket in append order. -/
def add_boundary (buckets : List (Nat × List HighlightEntry)) (key : Nat)
    (e : HighlightEntry) : List (Nat × List HighlightEntry) :=
  match buckets with
  | [] => [(key, [e])]
  | (k, es) :: rest =>
    if k = key then (k, es ++ [e]) :: rest
    else (k, es) :: add_boundary rest key e

/-- The span/boundary split at the top of `_apply_highlights`
(`end > start` is a span, otherwise a boundary at `start`). -/
def split_highlights (highlights : List HighlightEntry) :
    List HighlightEntry × List (Nat × List HighlightEntry) :=
  highlights.foldl
    (fun acc e =>
      if e.start < e.stop then (acc.1 ++ [e], acc.2)
      else (acc.1, add_boundary acc.2 e.start e))
    ([], [])

/-- `boundary_highlights.pop(key, None)`. -/
def pop_bucket (buckets : List (Nat × List HighlightEntry)) (key : Nat) :
    Option (List HighlightEntry) × List (Nat × List HighlightEntry) :=
  match buckets with
  | [] => (none, [])
  | (k, es) :: rest =>
    if k = key then (some es, rest)
    else
      let r := pop_bucket rest key
      (r.1, (k, es) :: r.2)

/-- `_build_highlight_lookup` over the span entries: offset → owning span,
later spans overwriting earlier ones on shared offsets, exactly as the
dict assignment does.  The result is the span's index (its identity). -/
def build_lookup (spans : List HighlightEntry) (idx : Nat) : Option Nat :=
  (List.range spans.length).reverse.find? (fun k =>
    let e := spans.getD k default_entry
    decide (e.start ≤ idx) && decide (idx < e.stop))

inductive Frag where
  | ftext (s : String)
  | marker (entry : HighlightEntry) (s : String)
deriving Repr, DecidableEq

/-- The per-leaf mutable state of `_apply_highlights`: the pending token
`buffer`, the identity of the active span entry, the emitted fragments,
and the remaining boundary buckets (shared across leaves). -/
structure LeafState where
  buffer : List String
  current : Option Nat
  frags : List Frag
  buckets : List (Nat × List HighlightEntry)

/-- The nested `flush()` closure. -/
def flush_leaf (spans : List HighlightEntry) (st : LeafState) : LeafState :=
  if st.buffer.isEmpty then st
  else
    let text := join_tokens st.buffer
    let frag := match st.current with
      | some k => Frag.marker (spans.getD k default_entry) text
      | none => Frag.ftext text
    { st with buffer := [], frags := st.frags ++ [frag] }

/-- The nested `emit_boundary(index)` closure: pop the bucket, and when
it yields entries, flush the buffer then emit one zero-width NBSP marker
per entry. -/
def emit_boundary (spans : List HighlightEntry) (st : LeafState)
    (idx : Nat) : LeafState :=
  let r := pop_bucket st.buckets idx
  match r.1 with
  | none => { st with buckets := r.2 }
  | some [] => { st with buckets := r.2 }
  | some es =>
    let st' := flush_leaf spans { st with buckets := r.2 }
    { st' with frags := st'.frags ++ es.map (fun e => Frag.marker e " ") }

/-- The `for offset, token in enumerate(tokens)` loop body. -/
def leaf_token_loop (spans : List HighlightEntry) (lookup : Nat → Option Nat)
    (start_index : Nat) : List String → Nat → LeafState → LeafState
  | [], _, st => st
  | token :: rest, offset, st =>
    let absolute := start_index + offset
    let e := lookup absolute
    let st1 := if e ≠ st.current then
        let f := flush_leaf spans st
        { f with current := e }
      else st
    let st2 := { st1 with buffer := st1.buffer ++ [token] }
    let st3 := emit_boundary spans st2 (absolute + 1)
    leaf_token_loop spans lookup start_index rest (offset + 1) st3

/-- Processing of one `node_infos` entry: leading boundary, token loop,
final flush, trailing boundary. -/
def process_leaf (spans : List HighlightEntry) (lookup : Nat → Option Nat)
    (info : LeafInfo) (buckets : List (Nat × List HighlightEntry)) :
    List Frag × List (Nat × List HighlightEntry) :=
  let st0 : LeafState := ⟨[], none, [], buckets⟩
  let st1 := emit_boundary spans st0 info.start
  let st2 := leaf_token_loop spans lookup info.start info.tokens 0 st1
  let st3 := flush_leaf spans st2
  let st4 := emit_boundary spans st3 info.stop
  (st4.frags, st4.buckets)

/-- All leaves in order, threading the boundary buckets.  The
`if parent is None: continue` guard of the source never fires: every text
node the flattener recorded sits in the tree, with the soup itself as the
outermost parent. -/
def process_leaves (spans : List HighlightEntry) (lookup : Nat → Option Nat) :
    List LeafInfo → List (Nat × List HighlightEntry) →
      List (List Frag) × List (Nat × List HighlightEntry)
  | [], buckets => ([], buckets)
  | info :: rest, buckets =>
    let r1 := process_leaf spans lookup info buckets
    let r2 := process_leaves spans lookup rest r1.2
    (r1.1 :: r2.1, r2.2)

def frag_to_node : Frag → HNode
  | .ftext s => .text s
  | .marker e s => create_marker_tag e s

mutual

/-- Replace the `k`-th (counting from `k₀`) nonempty text leaf with its
fragment nodes — the `insert_before` sequence plus `extract()` of the
source, as a rebuild. -/
def rebuild_node (frags : List (List HNode)) : HNode → Nat → (List HNode × Nat)
  | .text s, k =>
    if s = "" then ([.text s], k)
    else (frags.getD k [.text s], k + 1)
  | .tag name attrs children, k =>
    let r := rebuild_children frags children k
    ([.tag name attrs r.1], r.2)

def rebuild_children (frags : List (List HNode)) :
    List HNode → Nat → (List HNode × Nat)
  | [], k => ([], k)
  | n :: rest, k =>
    let r1 := rebuild_node frags n k
    let r2 := rebuild_children frags rest r1.2
    (r1.1 ++ r2.1, r2.2)

end

mutual

/-- Append `extra` inside the first `<body>` tag in document order
(`soup.body`), reporting whether one was found. -/
def append_node (extra : List HNode) : HNode → (HNode × Bool)
  | .text s => (.text s, false)
  | .tag name attrs children =>
    if name = "body" then (.tag name attrs (children ++ extra), true)
    else
      let r := append_into_children extra children
      (.tag name attrs r.1, r.2)

def append_into_children (extra : List HNode) :
    List HNode → (List HNode × Bool)
  | [] => ([], false)
  | n :: rest =>
    let r := append_node extra n
    if r.2 then (r.1 :: rest, true)
    else
      let r2 := append_into_children extra rest
      (n :: r2.1, r2.2)

end

def insert_sorted (k : Nat) : List Nat → List Nat
  | [] => [k]
  | x :: xs => if k ≤ x then k :: x :: xs else x :: insert_sorted k xs

def sort_keys (l : List Nat) : List Nat := l.foldr insert_sorted []

def bucket_get (buckets : List (Nat × List HighlightEntry)) (k : Nat) :
    List HighlightEntry :=
  match buckets.find? (fun b => b.1 = k) with
  | some b => b.2
  | none => []

/-- Leftover boundary markers whose anchor matched no leaf, appended in
sorted-key order.  The source computes `fallback_parent` from the last
processed node's `parent`, but that node was just `extract()`ed, so its
parent is `None` and the fallback is always `soup.body or soup` — the
first `<body>` tag if any, else the document root. -/
def apply_leftover (doc : List HNode)
    (leftover : List (Nat × List HighlightEntry)) : List HNode :=
  if leftover.isEmpty then doc
  else
    let markers := (sort_keys (leftover.map (·.1))).flatMap
      (fun k => (bucket_get leftover k).map
        (fun e => create_marker_tag e " "))
    let r := append_into_children markers doc
    if r.2 then r.1 else doc ++ markers

/-- The tree produced by `_apply_highlights`' mutation pass (everything
before the final `str(soup)`), for a nonempty highlight list. -/
def apply_highlights_tree (doc : List HNode) (node_infos : List LeafInfo)
    (highlights : List HighlightEntry) : List HNode :=
  let sb := split_highlights highlights
  let lookup := build_lookup sb.1
  let pr := process_leaves sb.1 lookup node_infos sb.2
  let frags := pr.1.map (fun fs => fs.map frag_to_node)
  apply_leftover (rebuild_children frags doc 0).1 pr.2

/-! ### Serializer (`str(soup)`, html.parser tree builder, minimal
formatter: `&`, `<`, `>` escaped in text, attribute values additionally
escape the quote) -/

def escape_text_char (c : Char) : String :=
  if c = '&' then "&amp;"
  else if c = '<' then "&lt;"
  else if c = '>' then "&gt;"
  else String.singleton c

def escape_text (s : String) : String :=
  join_tokens (s.data.map escape_text_char)

def escape_attr_char (c : Char) : String :=
  if c = '&' then "&amp;"
  else if c = '<' then "&lt;"
  else if c = '>' then "&gt;"
  else if c = '"' then "&quot;"
  else String.singleton c

def escape_attr (s : String) : String :=
  join_tokens (s.data.map escape_attr_char)

def void_tags : List String :=
  ["area", "base", "br", "col", "embed", "hr", "img", "input", "keygen",
   "link", "menuitem", "meta", "param", "source", "track", "wbr"]

mutual

def serialize_node : HNode → String
  | .text s => escape_text s
  | .tag name attrs children =>
    let attr_str := join_tokens (attrs.map
      (fun a => " " ++ a.1 ++ "=\"" ++ escape_attr a.2 ++ "\""))
    if void_tags.contains name && children.isEmpty then
      "<" ++ name ++ attr_str ++ "/>"
    else
      "<" ++ name ++ attr_str ++ ">" ++ serialize_children children ++
        "</" ++ name ++ ">"

def serialize_children : List HNode → String
  | [] => ""
  | n :: rest => serialize_node n ++ serialize_children rest

end

def serialize_doc (doc : List HNode) : String := serialize_children doc

/-- `_apply_highlights` of `main.py`: early return of the untouched
serialization when there are no highlights, otherwise mutate then
serialize. -/
def apply_highlights (doc : List HNode) (node_infos : List LeafInfo)
    (highlights : List HighlightEntry) : String :=
  if highlights.isEmpty then serialize_doc doc
  else serialize_doc (apply_highlights_tree doc node_infos highlights)

/-- Concatenated textual content of a tree (document-order text leaves,
marker text included once wrapped). -/
def doc_text_concat (doc : List HNode) : String :=
  join_tokens (doc_texts doc)

/-! ### Orchestrator (`_build_diff`) -/

structure DiffResult where
  diff_html : String
  stats : DiffStats
  diff_items : List DiffItem
  highlighted_original : String
  highlighted_modified : String
deriving Repr, DecidableEq

/-- `_build_diff` of `main.py`, over already-parsed documents (the
BeautifulSoup parse of the two HTML strings is external). -/
def build_diff (original_doc modified_doc : List HNode) : DiffResult :=
  let po := prepare_html_tokens original_doc
  let pm := prepare_html_tokens modified_doc
  let ops := get_opcodes po.1 pm.1
  let st := classify_opcodes original_doc modified_doc po.2 pm.2 po.1 pm.1 ops
  { diff_html := join_tokens st.diff_parts
    stats := ⟨st.inserted_tokens, st.deleted_tokens, st.replaced_tokens⟩
    diff_items := st.diff_items
    highlighted_original := apply_highlights original_doc po.2 st.highlights_original
    highlighted_modified := apply_highlights modified_doc pm.2 st.highlights_modified }

/-! ### Claim theorems -/

/-- C1 — Idempotence of the whole diff: `_build_diff(X, X)` (the parse of
an HTML string is deterministic, so both sides hold the same parsed tree)
yields an empty `diff_items` list, all-zero stats, and
`highlighted_original = highlighted_modified = str(soup)`, the
serialization of the parsed tree with no marker elements inserted. -/
theorem build_diff_idempotent (doc : List HNode) :
    (build_diff doc doc).diff_items = [] ∧
    (build_diff doc doc).stats = ⟨0, 0, 0⟩ ∧
    (build_diff doc doc).highlighted_original =
      (build_diff doc doc).highlighted_modified ∧
    (build_diff doc doc).highlighted_modified = serialize_doc doc := by
  have hops := get_opcodes_self (prepare_html_tokens doc).1
  unfold build_diff
  dsimp only
  rw [hops]
  by_cases hn : (prepare_html_tokens doc).1.length = 0
  · rw [if_pos hn]
    simp [classify_opcodes, initial_build_state, apply_highlights]
  · rw [if_neg hn]
    simp [classify_opcodes, classify_step, initial_build_state, apply_highlights]

/-! #### Opcode well-formedness

`difflib` opcodes always satisfy `i1 ≤ i2` and `j1 ≤ j2`; several claims
(notably token-count conservation) depend on it.  The proof follows the
algorithm: the DP loop only produces matches inside the current windows,
the recursion keeps blocks in ascending order, merging preserves that,
and the opcode walk then emits ordered ranges. -/

theorem flm_inner_bounds (a b : List String) (i alo ahi blo bhi : Nat)
    (old : Nat → Nat) (hi1 : alo ≤ i) (hia : i < ahi)
    (hold1 : ∀ j, old j ≤ i - alo)
    (hold2 : ∀ j, old j ≤ j + 1 - blo) :
    ∀ (js : List Nat) (new : Nat → Nat) (best : FlmState),
      alo ≤ best.besti → best.besti + best.bestsize ≤ ahi →
      blo ≤ best.bestj → best.bestj + best.bestsize ≤ bhi →
      (∀ j, new j ≤ i + 1 - alo) → (∀ j, new j ≤ j + 1 - blo) →
      alo ≤ (flm_inner i blo bhi old js new best).2.besti ∧
      (flm_inner i blo bhi old js new best).2.besti +
        (flm_inner i blo bhi old js new best).2.bestsize ≤ ahi ∧
      blo ≤ (flm_inner i blo bhi old js new best).2.bestj ∧
      (flm_inner i blo bhi old js new best).2.bestj +
        (flm_inner i blo bhi old js new best).2.bestsize ≤ bhi ∧
      (∀ j, (flm_inner i blo bhi old js new best).1 j ≤ i + 1 - alo) ∧
      (∀ j, (flm_inner i blo bhi old js new best).1 j ≤ j + 1 - blo) := by
  intro js
  induction js with
  | nil =>
    intro new best hb1 hb2 hb3 hb4 hn1 hn2
    simp only [flm_inner]
    exact ⟨hb1, hb2, hb3, hb4, hn1, hn2⟩
  | cons j rest ih =>
    intro new best hb1 hb2 hb3 hb4 hn1 hn2
    by_cases hjlo : j < blo
    · rw [show flm_inner i blo bhi old (j :: rest) new best =
          flm_inner i blo bhi old rest new best by
        conv_lhs => rw [flm_inner]
        rw [if_pos hjlo]]
      exact ih new best hb1 hb2 hb3 hb4 hn1 hn2
    · by_cases hjhi : bhi ≤ j
      · rw [show flm_inner i blo bhi old (j :: rest) new best = (new, best) by
          conv_lhs => rw [flm_inner]
          rw [if_neg hjlo, if_pos hjhi]]
        exact ⟨hb1, hb2, hb3, hb4, hn1, hn2⟩
      · rw [flm_inner_cons_step i blo bhi old j rest new best hjlo hjhi]
        have hk1 : (if j = 0 then 0 else old (j - 1)) + 1 ≤ i + 1 - alo := by
          by_cases h0 : j = 0
          · simp only [h0, if_true]
            omega
          · simp only [h0, if_false]
            have := hold1 (j - 1)
            omega
        have hk2 : (if j = 0 then 0 else old (j - 1)) + 1 ≤ j + 1 - blo := by
          by_cases h0 : j = 0
          · simp only [h0, if_true]
            omega
          · simp only [h0, if_false]
            have := hold2 (j - 1)
            omega
        have hnew1 : ∀ j', (fun j' => if j' = j then
            (if j = 0 then 0 else old (j - 1)) + 1 else new j') j' ≤
              i + 1 - alo := by
          intro j'
          by_cases h' : j' = j
          · simp only [h', if_true]
            exact hk1
          · simp only [h', if_false]
            exact hn1 j'
        have hnew2 : ∀ j', (fun j' => if j' = j then
            (if j = 0 then 0 else old (j - 1)) + 1 else new j') j' ≤
              j' + 1 - blo := by
          intro j'
          by_cases h' : j' = j
          · simp only [h', if_true]
            exact hk2
          · simp only [h', if_false]
            exact hn2 j'
        by_cases hup : best.bestsize < (if j = 0 then 0 else old (j - 1)) + 1
        · rw [if_pos hup]
          exact ih _ ⟨i + 1 - ((if j = 0 then 0 else old (j - 1)) + 1),
              j + 1 - ((if j = 0 then 0 else old (j - 1)) + 1),
              (if j = 0 then 0 else old (j - 1)) + 1⟩
            (show alo ≤ i + 1 - ((if j = 0 then 0 else old (j - 1)) + 1) by omega)
            (show i + 1 - ((if j = 0 then 0 else old (j - 1)) + 1) +
              ((if j = 0 then 0 else old (j - 1)) + 1) ≤ ahi by omega)
            (show blo ≤ j + 1 - ((if j = 0 then 0 else old (j - 1)) + 1) by omega)
            (show j + 1 - ((if j = 0 then 0 else old (j - 1)) + 1) +
              ((if j = 0 then 0 else old (j - 1)) + 1) ≤ bhi by omega)
            hnew1 hnew2
        · rw [if_neg hup]
          exact ih _ best hb1 hb2 hb3 hb4 hnew1 hnew2

theorem flm_rows_bounds (a b : List String) (alo ahi blo bhi : Nat) :
    ∀ (cnt i : Nat) (old : Nat → Nat) (best : FlmState),
      alo ≤ i → i + cnt ≤ ahi →
      (∀ j, old j ≤ i - alo) → (∀ j, old j ≤ j + 1 - blo) →
      alo ≤ best.besti → best.besti + best.bestsize ≤ ahi →
      blo ≤ best.bestj → best.bestj + best.bestsize ≤ bhi →
      alo ≤ (flm_rows a b blo bhi (List.range' i cnt) old best).2.besti ∧
      (flm_rows a b blo bhi (List.range' i cnt) old best).2.besti +
        (flm_rows a b blo bhi (List.range' i cnt) old best).2.bestsize ≤ ahi ∧
      blo ≤ (flm_rows a b blo bhi (List.range' i cnt) old best).2.bestj ∧
      (flm_rows a b blo bhi (List.range' i cnt) old best).2.bestj +
        (flm_rows a b blo bhi (List.range' i cnt) old best).2.bestsize ≤ bhi := by
  intro cnt
  induction cnt with
  | zero =>
    intro i old best _ _ _ _ hb1 hb2 hb3 hb4
    simpa [flm_rows] using ⟨hb1, hb2, hb3, hb4⟩
  | succ cnt ih =>
    intro i old best hi1 hi2 hold1 hold2 hb1 hb2 hb3 hb4
    rw [List.range'_succ]
    simp only [flm_rows]
    obtain ⟨r1, r2, r3, r4, r5, r6⟩ := flm_inner_bounds a b i alo ahi blo bhi
      old hi1 (by omega) hold1 hold2 (b2j_get b (a.getD i ""))
      (fun _ => 0) best hb1 hb2 hb3 hb4
      (fun j => Nat.zero_le _) (fun j => Nat.zero_le _)
    exact ih (i + 1) _ _ (by omega) (by omega)
      (fun j => by have := r5 j; omega) r6 r1 r2 r3 r4

theorem extend_back_bounds (a b : List String) (alo blo ahi bhi : Nat) :
    ∀ (fuel : Nat) (st : FlmState),
      alo ≤ st.besti → st.besti + st.bestsize ≤ ahi →
      blo ≤ st.bestj → st.bestj + st.bestsize ≤ bhi →
      alo ≤ (extend_back a b alo blo fuel st).besti ∧
      (extend_back a b alo blo fuel st).besti +
        (extend_back a b alo blo fuel st).bestsize ≤ ahi ∧
      blo ≤ (extend_back a b alo blo fuel st).bestj ∧
      (extend_back a b alo blo fuel st).bestj +
        (extend_back a b alo blo fuel st).bestsize ≤ bhi := by
  intro fuel
  induction fuel with
  | zero =>
    intro st h1 h2 h3 h4
    exact ⟨h1, h2, h3, h4⟩
  | succ fuel ih =>
    intro st h1 h2 h3 h4
    rcases st with ⟨bi, bj, bs⟩
    dsimp only at h1 h2 h3 h4
    rw [extend_back]
    split
    · next h =>
      obtain ⟨hh1, hh2, _⟩ := h
      dsimp only at hh1 hh2
      exact ih ⟨bi - 1, bj - 1, bs + 1⟩ (show alo ≤ bi - 1 by omega)
        (show bi - 1 + (bs + 1) ≤ ahi by omega)
        (show blo ≤ bj - 1 by omega)
        (show bj - 1 + (bs + 1) ≤ bhi by omega)
    · exact ⟨h1, h2, h3, h4⟩

theorem extend_fwd_bounds (a b : List String) (alo blo ahi bhi : Nat) :
    ∀ (fuel : Nat) (st : FlmState),
      alo ≤ st.besti → st.besti + st.bestsize ≤ ahi →
      blo ≤ st.bestj → st.bestj + st.bestsize ≤ bhi →
      alo ≤ (extend_fwd a b ahi bhi fuel st).besti ∧
      (extend_fwd a b ahi bhi fuel st).besti +
        (extend_fwd a b ahi bhi fuel st).bestsize ≤ ahi ∧
      blo ≤ (extend_fwd a b ahi bhi fuel st).bestj ∧
      (extend_fwd a b ahi bhi fuel st).bestj +
        (extend_fwd a b ahi bhi fuel st).bestsize ≤ bhi := by
  intro fuel
  induction fuel with
  | zero =>
    intro st h1 h2 h3 h4
    exact ⟨h1, h2, h3, h4⟩
  | succ fuel ih =>
    intro st h1 h2 h3 h4
    rcases st with ⟨bi, bj, bs⟩
    dsimp only at h1 h2 h3 h4
    rw [extend_fwd]
    split
    · next h =>
      obtain ⟨hh1, hh2, _⟩ := h
      dsimp only at hh1 hh2
      exact ih ⟨bi, bj, bs + 1⟩ (show alo ≤ bi by omega)
        (show bi + (bs + 1) ≤ ahi by omega)
        (show blo ≤ bj by omega)
        (show bj + (bs + 1) ≤ bhi by omega)
    · exact ⟨h1, h2, h3, h4⟩

theorem find_longest_match_bounds (a b : List String) (alo ahi blo bhi : Nat)
    (ha : alo ≤ ahi) (hb : blo ≤ bhi) :
    alo ≤ (find_longest_match a b alo ahi blo bhi).i ∧
    (find_longest_match a b alo ahi blo bhi).i +
      (find_longest_match a b alo ahi blo bhi).size ≤ ahi ∧
    blo ≤ (find_longest_match a b alo ahi blo bhi).j ∧
    (find_longest_match a b alo ahi blo bhi).j +
      (find_longest_match a b alo ahi blo bhi).size ≤ bhi := by
  unfold find_longest_match
  dsimp only
  obtain ⟨r1, r2, r3, r4⟩ := flm_rows_bounds a b alo ahi blo bhi (ahi - alo)
    alo (fun _ => 0) ⟨alo, blo, 0⟩ (le_refl alo) (by omega)
    (fun j => Nat.zero_le _) (fun j => Nat.zero_le _)
    (le_refl alo) (by dsimp only; omega) (le_refl blo) (by dsimp only; omega)
  obtain ⟨s1, s2, s3, s4⟩ := extend_back_bounds a b alo blo ahi bhi
    (flm_rows a b blo bhi (List.range' alo (ahi - alo)) (fun _ => 0)
      ⟨alo, blo, 0⟩).2.besti _ r1 r2 r3 r4
  obtain ⟨t1, t2, t3, t4⟩ := extend_fwd_bounds a b alo blo ahi bhi ahi
    _ s1 s2 s3 s4
  exact ⟨t1, t2, t3, t4⟩

/-- Ascending, in-bounds matching blocks starting from running position
`(i, j)`: each block starts at or after the running position and ends
within `(ahi, bhi)`; the running position then advances to its end. -/
def blocks_chain (ahi bhi : Nat) : Nat → Nat → List DMatch → Prop
  | _, _, [] => True
  | i, j, m :: rest =>
    i ≤ m.i ∧ j ≤ m.j ∧ m.i + m.size ≤ ahi ∧ m.j + m.size ≤ bhi ∧
      blocks_chain ahi bhi (m.i + m.size) (m.j + m.size) rest

theorem blocks_chain_glue (ahi bhi mi mj : Nat) (m : DMatch)
    (R : List DMatch) (hmi : mi ≤ m.i) (hmj : mj ≤ m.j)
    (hm1 : m.i + m.size ≤ ahi) (hm2 : m.j + m.size ≤ bhi)
    (hR : blocks_chain ahi bhi (m.i + m.size) (m.j + m.size) R) :
    ∀ (L : List DMatch) (i j : Nat), blocks_chain mi mj i j L →
      i ≤ mi → j ≤ mj → blocks_chain ahi bhi i j (L ++ m :: R) := by
  intro L
  induction L with
  | nil =>
    intro i j _ hi hj
    exact ⟨by omega, by omega, hm1, hm2, hR⟩
  | cons bl L' ih =>
    intro i j hch hi hj
    obtain ⟨h1, h2, h3, h4, h5⟩ := hch
    exact ⟨h1, h2, by omega, by omega, ih _ _ h5 h3 h4⟩

theorem matching_blocks_rec_chain (a b : List String) :
    ∀ (fuel alo ahi blo bhi : Nat), alo ≤ ahi → blo ≤ bhi →
      blocks_chain ahi bhi alo blo
        (matching_blocks_rec a b fuel alo ahi blo bhi) := by
  intro fuel
  induction fuel with
  | zero => intro alo ahi blo bhi _ _; trivial
  | succ fuel ih =>
    intro alo ahi blo bhi ha hb
    rw [matching_blocks_rec]
    split
    · trivial
    · obtain ⟨m1, m2, m3, m4⟩ := find_longest_match_bounds a b alo ahi blo bhi ha hb
      set m := find_longest_match a b alo ahi blo bhi with hm
      have hR : blocks_chain ahi bhi (m.i + m.size) (m.j + m.size)
          (if m.i + m.size < ahi ∧ m.j + m.size < bhi then
            matching_blocks_rec a b fuel (m.i + m.size) ahi (m.j + m.size) bhi
          else []) := by
        split
        · next h => exact ih (m.i + m.size) ahi (m.j + m.size) bhi (by omega) (by omega)
        · trivial
      rw [List.append_assoc]
      refine blocks_chain_glue ahi bhi m.i m.j m _ (le_refl _) (le_refl _)
        m2 m4 hR _ alo blo ?_ m1 m3
      split
      · next h => exact ih alo m.i blo m.j (by omega) (by omega)
      · trivial

theorem merge_adjacent_chain (ahi bhi : Nat) :
    ∀ (bs : List DMatch) (i1 j1 k1 i j : Nat),
      blocks_chain ahi bhi (i1 + k1) (j1 + k1) bs →
      i ≤ i1 → j ≤ j1 → i1 + k1 ≤ ahi → j1 + k1 ≤ bhi →
      blocks_chain ahi bhi i j (merge_adjacent_loop (i1, j1, k1) bs) := by
  intro bs
  induction bs with
  | nil =>
    intro i1 j1 k1 i j _ hi hj h1 h2
    rw [merge_adjacent_loop]
    split
    · exact ⟨hi, hj, h1, h2, trivial⟩
    · trivial
  | cons m rest ih =>
    intro i1 j1 k1 i j hch hi hj h1 h2
    obtain ⟨c1, c2, c3, c4, c5⟩ := hch
    rw [merge_adjacent_loop]
    split
    · next hadj =>
      refine ih i1 j1 (k1 + m.size) i j ?_ hi hj (by omega) (by omega)
      have : i1 + (k1 + m.size) = m.i + m.size ∧
          j1 + (k1 + m.size) = m.j + m.size := by omega
      rw [this.1, this.2]
      exact c5
    · next hnadj =>
      have hrec := ih m.i m.j m.size (i1 + k1) (j1 + k1)
        c5 c1 c2 c3 c4
      split
      · exact ⟨hi, hj, h1, h2, hrec⟩
      · next hk1 =>
        have hk1' : k1 = 0 := by simpa using hk1
        subst hk1'
        refine ih m.i m.j m.size i j c5 (by omega) (by omega) c3 c4

theorem blocks_chain_sentinel (la lb : Nat) :
    ∀ (bs : List DMatch) (i j : Nat), blocks_chain la lb i j bs →
      i ≤ la → j ≤ lb → blocks_chain la lb i j (bs ++ [⟨la, lb, 0⟩]) := by
  intro bs
  induction bs with
  | nil =>
    intro i j _ hi hj
    exact ⟨hi, hj, show la + 0 ≤ la by omega, show lb + 0 ≤ lb by omega, trivial⟩
  | cons m rest ih =>
    intro i j hch hi hj
    obtain ⟨c1, c2, c3, c4, c5⟩ := hch
    exact ⟨c1, c2, c3, c4, ih _ _ c5 c3 c4⟩

theorem get_matching_blocks_chain (a b : List String) :
    blocks_chain a.length b.length 0 0 (get_matching_blocks a b) := by
  unfold get_matching_blocks
  dsimp only
  refine blocks_chain_sentinel a.length b.length _ 0 0 ?_ (Nat.zero_le _) (Nat.zero_le _)
  refine merge_adjacent_chain a.length b.length _ 0 0 0 0 0 ?_
    (le_refl 0) (le_refl 0) (Nat.zero_le _) (Nat.zero_le _)
  simpa using matching_blocks_rec_chain a b (a.length + b.length + 1)
    0 a.length 0 b.length (Nat.zero_le _) (Nat.zero_le _)

/-- Opcode well-formedness: ranges are ordered (`i1 ≤ i2`, `j1 ≤ j2`). -/
def ops_wf (ops : List Opcode) : Prop :=
  ∀ op ∈ ops, op.i1 ≤ op.i2 ∧ op.j1 ≤ op.j2

theorem opcodes_loop_wf (ahi bhi : Nat) :
    ∀ (bs : List DMatch) (i j : Nat), blocks_chain ahi bhi i j bs →
      ops_wf (opcodes_loop i j bs) := by
  intro bs
  induction bs with
  | nil => intro i j _ op hop; exact absurd hop (List.not_mem_nil op)
  | cons m rest ih =>
    intro i j hch op hop
    obtain ⟨c1, c2, c3, c4, c5⟩ := hch
    rw [opcodes_loop] at hop
    simp only [List.mem_append] at hop
    rcases hop with (hf | he) | hr
    · -- the front opcode: its ranges run from the cursor to the block start
      split at hf
      · next h =>
        simp only [List.mem_singleton] at hf
        subst hf
        exact ⟨show i ≤ m.i by omega, show j ≤ m.j by omega⟩
      · split at hf
        · next h =>
          simp only [List.mem_singleton] at hf
          subst hf
          exact ⟨show i ≤ m.i by omega, show j ≤ m.j by omega⟩
        · split at hf
          · next h =>
            simp only [List.mem_singleton] at hf
            subst hf
            exact ⟨show i ≤ m.i by omega, show j ≤ m.j by omega⟩
          · exact absurd hf (List.not_mem_nil op)
    · split at he
      · simp only [List.mem_singleton] at he
        subst he
        exact ⟨show m.i ≤ m.i + m.size by omega, show m.j ≤ m.j + m.size by omega⟩
      · exact absurd he (List.not_mem_nil op)
    · exact ih _ _ c5 op hr

theorem get_opcodes_wf (a b : List String) : ops_wf (get_opcodes a b) :=
  opcodes_loop_wf a.length b.length (get_matching_blocks a b) 0 0
    (get_matching_blocks_chain a b)

/-! #### Classifier fold lemmas (stats, conservation, ids) -/

/-- `Σ (j2 - j1)` over the non-degenerate insert opcodes. -/
def sum_inserted : List Opcode → Nat
  | [] => 0
  | op :: rest =>
    (if op.tag = .insert ∧ op.j1 ≠ op.j2 then op.j2 - op.j1 else 0) +
      sum_inserted rest

/-- `Σ (i2 - i1)` over the non-degenerate delete opcodes. -/
def sum_deleted : List Opcode → Nat
  | [] => 0
  | op :: rest =>
    (if op.tag = .delete ∧ op.i1 ≠ op.i2 then op.i2 - op.i1 else 0) +
      sum_deleted rest

/-- `Σ max(i2 - i1, j2 - j1)` over the non-degenerate replace opcodes. -/
def sum_replaced : List Opcode → Nat
  | [] => 0
  | op :: rest =>
    (if op.tag = .replace ∧ ¬(op.i1 = op.i2 ∧ op.j1 = op.j2) then
      max (op.i2 - op.i1) (op.j2 - op.j1) else 0) + sum_replaced rest

theorem classify_step_fields (od md : List HNode) (oi mi : List LeafInfo)
    (ot mt : List String) (st : BuildState) (op : Opcode) :
    (classify_step od md oi mi ot mt st op).inserted_tokens =
      st.inserted_tokens +
        (if op.tag = .insert ∧ op.j1 ≠ op.j2 then op.j2 - op.j1 else 0) ∧
    (classify_step od md oi mi ot mt st op).deleted_tokens =
      st.deleted_tokens +
        (if op.tag = .delete ∧ op.i1 ≠ op.i2 then op.i2 - op.i1 else 0) ∧
    (classify_step od md oi mi ot mt st op).replaced_tokens =
      st.replaced_tokens +
        (if op.tag = .replace ∧ ¬(op.i1 = op.i2 ∧ op.j1 = op.j2) then
          max (op.i2 - op.i1) (op.j2 - op.j1) else 0) := by
  rcases op with ⟨tag, i1, i2, j1, j2⟩
  cases tag with
  | equal => simp [classify_step]
  | insert =>
    by_cases h : j1 = j2
    · simp [classify_step, h]
    · simp [classify_step, h]
  | delete =>
    by_cases h : i1 = i2
    · simp [classify_step, h]
    · simp [classify_step, h]
  | replace =>
    by_cases h : i1 = i2 ∧ j1 = j2
    · simp [classify_step, h]
    · rw [show classify_step od md oi mi ot mt st ⟨.replace, i1, i2, j1, j2⟩ =
        (if i1 = i2 ∧ j1 = j2 then st else _) from rfl]
      rw [if_neg h]
      simp [h]

theorem classify_fold_stats (od md : List HNode) (oi mi : List LeafInfo)
    (ot mt : List String) :
    ∀ (ops : List Opcode) (st : BuildState),
      (ops.foldl (classify_step od md oi mi ot mt) st).inserted_tokens =
        st.inserted_tokens + sum_inserted ops ∧
      (ops.foldl (classify_step od md oi mi ot mt) st).deleted_tokens =
        st.deleted_tokens + sum_deleted ops ∧
      (ops.foldl (classify_step od md oi mi ot mt) st).replaced_tokens =
        st.replaced_tokens + sum_replaced ops := by
  intro ops
  induction ops with
  | nil => intro st; simp [sum_inserted, sum_deleted, sum_replaced]
  | cons op rest ih =>
    intro st
    obtain ⟨s1, s2, s3⟩ := classify_step_fields od md oi mi ot mt st op
    obtain ⟨i1, i2, i3⟩ := ih (classify_step od md oi mi ot mt st op)
    rw [List.foldl_cons]
    refine ⟨?_, ?_, ?_⟩
    · rw [i1, s1, sum_inserted]
      omega
    · rw [i2, s2, sum_deleted]
      omega
    · rw [i3, s3, sum_replaced]
      omega

/-- C4 — Stats postcondition: the returned stats are exactly the
per-opcode sums `Σ(j2-j1)` over insert, `Σ(i2-i1)` over delete and
`Σ max(i2-i1, j2-j1)` over replace opcodes of the alignment of the two
flattened token sequences. -/
theorem build_diff_stats_postcondition (original_doc modified_doc : List HNode) :
    (build_diff original_doc modified_doc).stats =
      ⟨sum_inserted (get_opcodes (prepare_html_tokens original_doc).1
          (prepare_html_tokens modified_doc).1),
        sum_deleted (get_opcodes (prepare_html_tokens original_doc).1
          (prepare_html_tokens modified_doc).1),
        sum_replaced (get_opcodes (prepare_html_tokens original_doc).1
          (prepare_html_tokens modified_doc).1)⟩ := by
  obtain ⟨h1, h2, h3⟩ := classify_fold_stats original_doc modified_doc
    (prepare_html_tokens original_doc).2 (prepare_html_tokens modified_doc).2
    (prepare_html_tokens original_doc).1 (prepare_html_tokens modified_doc).1
    (get_opcodes (prepare_html_tokens original_doc).1
      (prepare_html_tokens modified_doc).1)
    initial_build_state
  unfold build_diff classify_opcodes
  dsimp only
  rw [h1, h2, h3]
  simp [initial_build_state]

/-- Whether an opcode makes the classifier emit a `DiffItem` (the
degenerate-skip guards of `_build_diff`). -/
def op_emits (op : Opcode) : Bool :=
  match op.tag with
  | .equal => false
  | .insert => decide (op.j1 ≠ op.j2)
  | .delete => decide (op.i1 ≠ op.i2)
  | .replace => decide (¬(op.i1 = op.i2 ∧ op.j1 = op.j2))

theorem classify_step_items (od md : List HNode) (oi mi : List LeafInfo)
    (ot mt : List String) (st : BuildState) (op : Opcode) :
    (classify_step od md oi mi ot mt st op).diff_items.map DiffItem.id =
      st.diff_items.map DiffItem.id ++
        (if op_emits op then ["diff-" ++ toString st.diff_index] else []) ∧
    (classify_step od md oi mi ot mt st op).diff_index =
      st.diff_index + (if op_emits op then 1 else 0) := by
  rcases op with ⟨tag, i1, i2, j1, j2⟩
  cases tag with
  | equal => simp [classify_step, op_emits]
  | insert =>
    by_cases h : j1 = j2
    · simp [classify_step, op_emits, h]
    · simp [classify_step, op_emits, h]
  | delete =>
    by_cases h : i1 = i2
    · simp [classify_step, op_emits, h]
    · simp [classify_step, op_emits, h]
  | replace =>
    by_cases h : i1 = i2 ∧ j1 = j2
    · rw [show classify_step od md oi mi ot mt st ⟨.replace, i1, i2, j1, j2⟩ =
        (if i1 = i2 ∧ j1 = j2 then st else _) from rfl]
      rw [if_pos h]
      simp [op_emits, h]
    · rw [show classify_step od md oi mi ot mt st ⟨.replace, i1, i2, j1, j2⟩ =
        (if i1 = i2 ∧ j1 = j2 then st else _) from rfl]
      rw [if_neg h]
      simp [op_emits, h]

theorem classify_step_emit_inc (od md : List HNode) (oi mi : List LeafInfo)
    (ot mt : List String) (st : BuildState) (op : Opcode)
    (hwf : op.i1 ≤ op.i2 ∧ op.j1 ≤ op.j2) :
    (op_emits op = true →
      st.inserted_tokens + st.deleted_tokens + st.replaced_tokens + 1 ≤
        (classify_step od md oi mi ot mt st op).inserted_tokens +
          (classify_step od md oi mi ot mt st op).deleted_tokens +
          (classify_step od md oi mi ot mt st op).replaced_tokens) ∧
    (op_emits op = false →
      (classify_step od md oi mi ot mt st op).inserted_tokens +
        (classify_step od md oi mi ot mt st op).deleted_tokens +
        (classify_step od md oi mi ot mt st op).replaced_tokens =
      st.inserted_tokens + st.deleted_tokens + st.replaced_tokens) := by
  obtain ⟨s1, s2, s3⟩ := classify_step_fields od md oi mi ot mt st op
  rcases op with ⟨tag, i1, i2, j1, j2⟩
  dsimp only at hwf s1 s2 s3 ⊢
  cases tag with
  | equal =>
    constructor
    · intro h; simp [op_emits] at h
    · intro _; rw [s1, s2, s3]; simp
  | insert =>
    constructor
    · intro h
      simp only [op_emits, decide_eq_true_eq] at h
      rw [s1, s2, s3]
      simp only [show (Opcode.mk .insert i1 i2 j1 j2).tag = .insert from rfl]
      simp [h]
      omega
    · intro h
      simp only [op_emits, decide_eq_false_iff_not, not_not] at h
      rw [s1, s2, s3]
      simp [h]
  | delete =>
    constructor
    · intro h
      simp only [op_emits, decide_eq_true_eq] at h
      rw [s1, s2, s3]
      simp [h]
      omega
    · intro h
      simp only [op_emits, decide_eq_false_iff_not, not_not] at h
      rw [s1, s2, s3]
      simp [h]
  | replace =>
    constructor
    · intro h
      simp only [op_emits, decide_eq_true_eq] at h
      rw [s1, s2, s3]
      simp [h]
      omega
    · intro h
      simp only [op_emits, decide_eq_false_iff_not, not_not] at h
      rw [s1, s2, s3]
      simp [h]

theorem classify_fold_conservation (od md : List HNode) (oi mi : List LeafInfo)
    (ot mt : List String) :
    ∀ (ops : List Opcode) (st : BuildState), ops_wf ops →
      st.inserted_tokens + st.deleted_tokens + st.replaced_tokens ≤
        (ops.foldl (classify_step od md oi mi ot mt) st).inserted_tokens +
          (ops.foldl (classify_step od md oi mi ot mt) st).deleted_tokens +
          (ops.foldl (classify_step od md oi mi ot mt) st).replaced_tokens ∧
      st.diff_items.length ≤
        (ops.foldl (classify_step od md oi mi ot mt) st).diff_items.length ∧
      ((ops.foldl (classify_step od md oi mi ot mt) st).inserted_tokens +
          (ops.foldl (classify_step od md oi mi ot mt) st).deleted_tokens +
          (ops.foldl (classify_step od md oi mi ot mt) st).replaced_tokens =
        st.inserted_tokens + st.deleted_tokens + st.replaced_tokens ↔
       (ops.foldl (classify_step od md oi mi ot mt) st).diff_items.length =
        st.diff_items.length) := by
  intro ops
  induction ops with
  | nil => intro st _; simp
  | cons op rest ih =>
    intro st hwf
    have hwfop := hwf op (List.mem_cons_self op rest)
    have hwfrest : ops_wf rest := fun x hx => hwf x (List.mem_cons_of_mem op hx)
    obtain ⟨e1, e2⟩ := classify_step_emit_inc od md oi mi ot mt st op hwfop
    obtain ⟨it1, it2⟩ := classify_step_items od md oi mi ot mt st op
    obtain ⟨m1, m2, m3⟩ := ih (classify_step od md oi mi ot mt st op) hwfrest
    rw [List.foldl_cons]
    cases hem : op_emits op with
    | true =>
      have hinc := e1 hem
      have hlen : (classify_step od md oi mi ot mt st op).diff_items.length =
          st.diff_items.length + 1 := by
        simpa [hem] using congrArg List.length it1
      refine ⟨by omega, by omega, ?_⟩
      constructor
      · intro h; omega
      · intro h; omega
    | false =>
      have hinc := e2 hem
      have hlen : (classify_step od md oi mi ot mt st op).diff_items.length =
          st.diff_items.length := by
        simpa [hem] using congrArg List.length it1
      refine ⟨by omega, by omega, ?_⟩
      constructor
      · intro h
        have := m3.mp (by omega)
        omega
      · intro h
        have := m3.mpr (by omega)
        omega

/-- C5 — Token-count conservation:
`inserted_tokens + deleted_tokens + replaced_tokens = 0` iff `diff_items`
is empty. -/
theorem build_diff_token_count_conservation
    (original_doc modified_doc : List HNode) :
    ((build_diff original_doc modified_doc).stats.inserted_tokens +
      (build_diff original_doc modified_doc).stats.deleted_tokens +
      (build_diff original_doc modified_doc).stats.replaced_tokens = 0) ↔
    (build_diff original_doc modified_doc).diff_items = [] := by
  obtain ⟨_, _, h3⟩ := classify_fold_conservation original_doc modified_doc
    (prepare_html_tokens original_doc).2 (prepare_html_tokens modified_doc).2
    (prepare_html_tokens original_doc).1 (prepare_html_tokens modified_doc).1
    (get_opcodes (prepare_html_tokens original_doc).1
      (prepare_html_tokens modified_doc).1)
    initial_build_state
    (get_opcodes_wf (prepare_html_tokens original_doc).1
      (prepare_html_tokens modified_doc).1)
  unfold build_diff classify_opcodes
  dsimp only
  rw [show initial_build_state.inserted_tokens +
      initial_build_state.deleted_tokens +
      initial_build_state.replaced_tokens = 0 from rfl] at h3
  rw [show initial_build_state.diff_items.length = 0 from rfl] at h3
  rw [h3]
  exact List.length_eq_zero

theorem classify_fold_ids (od md : List HNode) (oi mi : List LeafInfo)
    (ot mt : List String) :
    ∀ (ops : List Opcode) (st : BuildState),
      st.diff_index = st.diff_items.length + 1 →
      st.diff_items.map DiffItem.id =
        (List.range st.diff_items.length).map
          (fun k => "diff-" ++ toString (k + 1)) →
      (ops.foldl (classify_step od md oi mi ot mt) st).diff_index =
        (ops.foldl (classify_step od md oi mi ot mt) st).diff_items.length + 1 ∧
      (ops.foldl (classify_step od md oi mi ot mt) st).diff_items.map
          DiffItem.id =
        (List.range
          (ops.foldl (classify_step od md oi mi ot mt) st).diff_items.length).map
            (fun k => "diff-" ++ toString (k + 1)) := by
  intro ops
  induction ops with
  | nil => intro st h1 h2; exact ⟨h1, h2⟩
  | cons op rest ih =>
    intro st h1 h2
    obtain ⟨it1, it2⟩ := classify_step_items od md oi mi ot mt st op
    rw [List.foldl_cons]
    cases hem : op_emits op with
    | true =>
      have hlen : (classify_step od md oi mi ot mt st op).diff_items.length =
          st.diff_items.length + 1 := by
        simpa [hem] using congrArg List.length it1
      have hif : (if op_emits op then 1 else 0) = 1 := by simp [hem]
      refine ih _ ?_ ?_
      · rw [it2, hlen, hif]
        omega
      · have hmap : (classify_step od md oi mi ot mt st op).diff_items.map
            DiffItem.id =
            st.diff_items.map DiffItem.id ++
              ["diff-" ++ toString st.diff_index] := by
          rw [it1]
          simp [hem]
        rw [hmap, hlen, h2, h1, List.range_succ]
        simp
    | false =>
      have hlen : (classify_step od md oi mi ot mt st op).diff_items.length =
          st.diff_items.length := by
        simpa [hem] using congrArg List.length it1
      have hif : (if op_emits op then 1 else 0) = 0 := by simp [hem]
      refine ih _ ?_ ?_
      · rw [it2, hlen, hif]
        omega
      · have hmap : (classify_step od md oi mi ot mt st op).diff_items.map
            DiffItem.id = st.diff_items.map DiffItem.id := by
          rw [it1]
          simp [hem]
        rw [hmap, hlen, h2]

/-- C6 — Monotonic shared ids: the `k`-th returned `DiffItem` carries id
`diff-(k+1)` — a single counter shared by insert, delete and replace
opcodes, starting at 1 and assigned in opcode-emission (document) order;
parsed as `diff-<N>` the ids are therefore strictly increasing in
`diff_items` order, independent of kind. -/
theorem build_diff_monotonic_ids (original_doc modified_doc : List HNode) :
    (build_diff original_doc modified_doc).diff_items.map DiffItem.id =
      (List.range (build_diff original_doc modified_doc).diff_items.length).map
        (fun k => "diff-" ++ toString (k + 1)) := by
  obtain ⟨_, h2⟩ := classify_fold_ids original_doc modified_doc
    (prepare_html_tokens original_doc).2 (prepare_html_tokens modified_doc).2
    (prepare_html_tokens original_doc).1 (prepare_html_tokens modified_doc).1
    (get_opcodes (prepare_html_tokens original_doc).1
      (prepare_html_tokens modified_doc).1)
    initial_build_state rfl rfl
  unfold build_diff classify_opcodes
  dsimp only
  exact h2

/-- C9 — Empty-side degradation: when the original flattens to zero
tokens and the modified to `n ≥ 1` tokens, the engine returns (totally,
without raising) exactly one `insert` item whose `modified_text` is the
concatenation of all modified tokens and whose `original_text` is empty,
with stats `(n, 0, 0)`; symmetrically one `delete` item with stats
`(0, n, 0)` when the modified side is empty. -/
theorem build_diff_empty_side (original_doc modified_doc : List HNode) :
    ((prepare_html_tokens original_doc).1 = [] →
      1 ≤ (prepare_html_tokens modified_doc).1.length →
      (build_diff original_doc modified_doc).diff_items.map
          (fun it => (it.type, it.original_text, it.modified_text)) =
        [("insert", "", join_tokens (prepare_html_tokens modified_doc).1)] ∧
      (build_diff original_doc modified_doc).stats =
        ⟨(prepare_html_tokens modified_doc).1.length, 0, 0⟩) ∧
    ((prepare_html_tokens modified_doc).1 = [] →
      1 ≤ (prepare_html_tokens original_doc).1.length →
      (build_diff original_doc modified_doc).diff_items.map
          (fun it => (it.type, it.original_text, it.modified_text)) =
        [("delete", join_tokens (prepare_html_tokens original_doc).1, "")] ∧
      (build_diff original_doc modified_doc).stats =
        ⟨0, (prepare_html_tokens original_doc).1.length, 0⟩) := by
  constructor
  · intro ho hm
    unfold build_diff classify_opcodes
    dsimp only
    rw [ho, get_opcodes_nil_left, if_neg (by omega)]
    rw [show (List.foldl (classify_step original_doc modified_doc
        (prepare_html_tokens original_doc).2 (prepare_html_tokens modified_doc).2
        [] (prepare_html_tokens modified_doc).1) initial_build_state
        [⟨.insert, 0, 0, 0, (prepare_html_tokens modified_doc).1.length⟩]) =
      classify_step original_doc modified_doc
        (prepare_html_tokens original_doc).2 (prepare_html_tokens modified_doc).2
        [] (prepare_html_tokens modified_doc).1 initial_build_state
        ⟨.insert, 0, 0, 0, (prepare_html_tokens modified_doc).1.length⟩ from rfl]
    rw [show classify_step original_doc modified_doc
        (prepare_html_tokens original_doc).2 (prepare_html_tokens modified_doc).2
        [] (prepare_html_tokens modified_doc).1 initial_build_state
        ⟨.insert, 0, 0, 0, (prepare_html_tokens modified_doc).1.length⟩ =
      (if (0 : Nat) = (prepare_html_tokens modified_doc).1.length then
        initial_build_state else _) from rfl]
    rw [if_neg (by omega)]
    constructor
    · simp [initial_build_state, token_slice]
    · simp [initial_build_state]
  · intro hm ho
    unfold build_diff classify_opcodes
    dsimp only
    rw [hm, get_opcodes_nil_right, if_neg (by omega)]
    rw [show (List.foldl (classify_step original_doc modified_doc
        (prepare_html_tokens original_doc).2 (prepare_html_tokens modified_doc).2
        (prepare_html_tokens original_doc).1 []) initial_build_state
        [⟨.delete, 0, (prepare_html_tokens original_doc).1.length, 0, 0⟩]) =
      classify_step original_doc modified_doc
        (prepare_html_tokens original_doc).2 (prepare_html_tokens modified_doc).2
        (prepare_html_tokens original_doc).1 [] initial_build_state
        ⟨.delete, 0, (prepare_html_tokens original_doc).1.length, 0, 0⟩ from rfl]
    rw [show classify_step original_doc modified_doc
        (prepare_html_tokens original_doc).2 (prepare_html_tokens modified_doc).2
        (prepare_html_tokens original_doc).1 [] initial_build_state
        ⟨.delete, 0, (prepare_html_tokens original_doc).1.length, 0, 0⟩ =
      (if (0 : Nat) = (prepare_html_tokens original_doc).1.length then
        initial_build_state else _) from rfl]
    rw [if_neg (by omega)]
    constructor
    · simp [initial_build_state, token_slice]
    · simp [initial_build_state]

/-- Witness for C9 at concrete inputs: an empty document against
`<p>x</p>`, in both directions. -/
theorem build_diff_empty_side_witness :
    ((build_diff ([] : List HNode) [HNode.tag "p" [] [HNode.text "x"]]).diff_items.map
        (fun it => (it.type, it.original_text, it.modified_text)) =
      [("insert", "",
        join_tokens (prepare_html_tokens [HNode.tag "p" [] [HNode.text "x"]]).1)] ∧
     (build_diff ([] : List HNode) [HNode.tag "p" [] [HNode.text "x"]]).stats =
      ⟨(prepare_html_tokens [HNode.tag "p" [] [HNode.text "x"]]).1.length, 0, 0⟩) ∧
    ((build_diff [HNode.tag "p" [] [HNode.text "x"]] ([] : List HNode)).diff_items.map
        (fun it => (it.type, it.original_text, it.modified_text)) =
      [("delete",
        join_tokens (prepare_html_tokens [HNode.tag "p" [] [HNode.text "x"]]).1, "")] ∧
     (build_diff [HNode.tag "p" [] [HNode.text "x"]] ([] : List HNode)).stats =
      ⟨0, (prepare_html_tokens [HNode.tag "p" [] [HNode.text "x"]]).1.length, 0⟩) :=
  ⟨(build_diff_empty_side [] [HNode.tag "p" [] [HNode.text "x"]]).1 rfl (by decide),
   (build_diff_empty_side [HNode.tag "p" [] [HNode.text "x"]] []).2 rfl (by decide)⟩

/-! #### C7: the delete-opcode placeholder clamp

`<p>a b</p>` diffed against `<p>a</p>` aligns as
`equal (0,1,0,1); delete (1,3,1,1)`: the delete opcode has
`j1 = 1 = len(modified_tokens)`, out of range as an index.  The claim
(and the spec) say the modified-side boundary placeholder is emitted at
`j1` clamped to the last valid index `len(modified_tokens) - 1 = 0`; the
code emits the highlight entry with `"start": j1, "end": j1` unclamped
(offset 1) and applies the clamp only to the index passed to
`_summarize_location` for the delete item's `modified_location`. -/

def c7_original : List HNode := [.tag "p" [] [.text "a b"]]

def c7_modified : List HNode := [.tag "p" [] [.text "a"]]

/-- Counterexample to C7 as stated: the only placeholder entry emitted on
the modified side sits at offset 1 = `len(modified_tokens)`, not at the
claimed clamped offset `len(modified_tokens) - 1 = 0`. -/
theorem delete_clamp_counterexample :
    ((classify_opcodes c7_original c7_modified
        (prepare_html_tokens c7_original).2 (prepare_html_tokens c7_modified).2
        (prepare_html_tokens c7_original).1 (prepare_html_tokens c7_modified).1
        (get_opcodes (prepare_html_tokens c7_original).1
          (prepare_html_tokens c7_modified).1)).highlights_modified.filter
      (fun e => e.placeholder)).map (fun e => e.start) = [1] ∧
    (get_opcodes (prepare_html_tokens c7_original).1
        (prepare_html_tokens c7_modified).1).map
      (fun op => (op.tag, op.i1, op.i2, op.j1, op.j2)) =
      [(.equal, 0, 1, 0, 1), (.delete, 1, 3, 1, 1)] ∧
    (prepare_html_tokens c7_modified).1.length - 1 = 0 := by
  refine ⟨?_, ?_, ?_⟩ <;> decide

theorem classify_fold_delete_entries (od md : List HNode)
    (oi mi : List LeafInfo) (ot mt : List String) (all : List Opcode) :
    ∀ (ops : List Opcode) (st : BuildState),
      (∀ op ∈ ops, op ∈ all) →
      (∀ e ∈ st.highlights_modified, e.placeholder = true → e.type = "delete" →
        ∃ op ∈ all, op.tag = .delete ∧ op.i1 ≠ op.i2 ∧
          e.start = op.j1 ∧ e.stop = op.j1) →
      (∀ it ∈ st.diff_items, it.type = "delete" →
        ∃ op ∈ all, op.tag = .delete ∧ op.i1 ≠ op.i2 ∧
          it.modified_location = summarize_location md mi
            (if op.j1 < mt.length then op.j1 else mt.length - 1)) →
      (∀ e ∈ (ops.foldl (classify_step od md oi mi ot mt) st).highlights_modified,
        e.placeholder = true → e.type = "delete" →
        ∃ op ∈ all, op.tag = .delete ∧ op.i1 ≠ op.i2 ∧
          e.start = op.j1 ∧ e.stop = op.j1) ∧
      (∀ it ∈ (ops.foldl (classify_step od md oi mi ot mt) st).diff_items,
        it.type = "delete" →
        ∃ op ∈ all, op.tag = .delete ∧ op.i1 ≠ op.i2 ∧
          it.modified_location = summarize_location md mi
            (if op.j1 < mt.length then op.j1 else mt.length - 1)) := by
  intro ops
  induction ops with
  | nil => intro st _ h1 h2; exact ⟨h1, h2⟩
  | cons op rest ih =>
    intro st hall h1 h2
    rw [List.foldl_cons]
    refine ih _ (fun x hx => hall x (List.mem_cons_of_mem op hx)) ?_ ?_
    · intro e he hp ht
      rcases op with ⟨tag, i1, i2, j1, j2⟩
      cases tag with
      | equal =>
        exact h1 e (by simpa [classify_step] using he) hp ht
      | insert =>
        by_cases hd : j1 = j2
        · exact h1 e (by simpa [classify_step, hd] using he) hp ht
        · have he' : e ∈ st.highlights_modified ∨
              e = ⟨"diff-" ++ toString st.diff_index, "insert", "modified",
                j1, j2, some (DIFF_TYPE_LABELS "insert"),
                some st.diff_index, false⟩ := by
            simpa [classify_step, hd] using he
          rcases he' with h | h
          · exact h1 e h hp ht
          · rw [h] at hp
            simp at hp
      | delete =>
        by_cases hd : i1 = i2
        · exact h1 e (by simpa [classify_step, hd] using he) hp ht
        · have he' : e ∈ st.highlights_modified ∨
              e = ⟨"diff-" ++ toString st.diff_index, "delete", "modified",
                j1, j1, some (DIFF_TYPE_LABELS "delete"),
                some st.diff_index, true⟩ := by
            simpa [classify_step, hd] using he
          rcases he' with h | h
          · exact h1 e h hp ht
          · refine ⟨⟨.delete, i1, i2, j1, j2⟩,
              hall _ (List.mem_cons_self _ _), rfl, hd, ?_, ?_⟩
            · rw [h]
            · rw [h]
      | replace =>
        by_cases hd : i1 = i2 ∧ j1 = j2
        · have hst : classify_step od md oi mi ot mt st ⟨.replace, i1, i2, j1, j2⟩ = st := by
            rw [show classify_step od md oi mi ot mt st ⟨.replace, i1, i2, j1, j2⟩ =
              (if i1 = i2 ∧ j1 = j2 then st else _) from rfl]
            rw [if_pos hd]
          exact h1 e (by rwa [hst] at he) hp ht
        · have he' : e ∈ st.highlights_modified ∨
              (j1 ≠ j2 ∧ e = ⟨"diff-" ++ toString st.diff_index, "replace",
                "modified", j1, j2, some (DIFF_TYPE_LABELS "replace"),
                some st.diff_index, false⟩) := by
            rw [show classify_step od md oi mi ot mt st ⟨.replace, i1, i2, j1, j2⟩ =
              (if i1 = i2 ∧ j1 = j2 then st else _) from rfl] at he
            rw [if_neg hd] at he
            by_cases hj : j1 = j2
            · left
              simpa [hj] using he
            · have := he
              simp only [List.mem_append] at this
              rcases this with h | h
              · exact Or.inl h
              · right
                refine ⟨hj, ?_⟩
                simpa [hj] using h
          rcases he' with h | ⟨_, h⟩
          · exact h1 e h hp ht
          · rw [h] at hp
            simp at hp
    · intro it hit ht
      rcases op with ⟨tag, i1, i2, j1, j2⟩
      cases tag with
      | equal =>
        exact h2 it (by simpa [classify_step] using hit) ht
      | insert =>
        by_cases hd : j1 = j2
        · exact h2 it (by simpa [classify_step, hd] using hit) ht
        · have hit' : it ∈ st.diff_items ∨
              it = ⟨"diff-" ++ toString st.diff_index, "insert", "",
                join_tokens (token_slice mt j1 j2), none,
                summarize_location md mi j1⟩ := by
            simpa [classify_step, hd] using hit
          rcases hit' with h | h
          · exact h2 it h ht
          · rw [h] at ht
            simp at ht
      | delete =>
        by_cases hd : i1 = i2
        · exact h2 it (by simpa [classify_step, hd] using hit) ht
        · have hit' : it ∈ st.diff_items ∨
              it = ⟨"diff-" ++ toString st.diff_index, "delete",
                join_tokens (token_slice ot i1 i2), "",
                summarize_location od oi i1,
                summarize_location md mi
                  (if j1 < mt.length then j1 else mt.length - 1)⟩ := by
            simpa [classify_step, hd] using hit
          rcases hit' with h | h
          · exact h2 it h ht
          · exact ⟨⟨.delete, i1, i2, j1, j2⟩,
              hall _ (List.mem_cons_self _ _), rfl, hd, by rw [h]⟩
      | replace =>
        by_cases hd : i1 = i2 ∧ j1 = j2
        · have hst : classify_step od md oi mi ot mt st ⟨.replace, i1, i2, j1, j2⟩ = st := by
            rw [show classify_step od md oi mi ot mt st ⟨.replace, i1, i2, j1, j2⟩ =
              (if i1 = i2 ∧ j1 = j2 then st else _) from rfl]
            rw [if_pos hd]
          exact h2 it (by rwa [hst] at hit) ht
        · have hit' : it ∈ st.diff_items ∨
              it = ⟨"diff-" ++ toString st.diff_index, "replace",
                join_tokens (token_slice ot i1 i2),
                join_tokens (token_slice mt j1 j2),
                summarize_location od oi i1,
                summarize_location md mi j1⟩ := by
            rw [show classify_step od md oi mi ot mt st ⟨.replace, i1, i2, j1, j2⟩ =
              (if i1 = i2 ∧ j1 = j2 then st else _) from rfl] at hit
            rw [if_neg hd] at hit
            simpa using hit
          rcases hit' with h | h
          · exact h2 it h ht
          · rw [h] at ht
            simp at ht

/-- C7 amended — Delete-opcode placeholder: for every pair of documents,
every placeholder highlight entry of type `delete` emitted on the
modified side sits at the raw offset `j1` of a non-degenerate delete
opcode of the alignment, with no clamping (even when `j1` equals the
modified token count); the clamp to the last valid token index
`len(modified_tokens) - 1` is applied only to the token index passed to
the modified-side location resolver for the delete's `DiffItem`. -/
theorem delete_placeholder_unclamped (original_doc modified_doc : List HNode) :
    (∀ e ∈ (classify_opcodes original_doc modified_doc
        (prepare_html_tokens original_doc).2 (prepare_html_tokens modified_doc).2
        (prepare_html_tokens original_doc).1 (prepare_html_tokens modified_doc).1
        (get_opcodes (prepare_html_tokens original_doc).1
          (prepare_html_tokens modified_doc).1)).highlights_modified,
      e.placeholder = true → e.type = "delete" →
      ∃ op ∈ get_opcodes (prepare_html_tokens original_doc).1
          (prepare_html_tokens modified_doc).1,
        op.tag = .delete ∧ op.i1 ≠ op.i2 ∧ e.start = op.j1 ∧ e.stop = op.j1) ∧
    (∀ it ∈ (classify_opcodes original_doc modified_doc
        (prepare_html_tokens original_doc).2 (prepare_html_tokens modified_doc).2
        (prepare_html_tokens original_doc).1 (prepare_html_tokens modified_doc).1
        (get_opcodes (prepare_html_tokens original_doc).1
          (prepare_html_tokens modified_doc).1)).diff_items,
      it.type = "delete" →
      ∃ op ∈ get_opcodes (prepare_html_tokens original_doc).1
          (prepare_html_tokens modified_doc).1,
        op.tag = .delete ∧ op.i1 ≠ op.i2 ∧
        it.modified_location = summarize_location modified_doc
          (prepare_html_tokens modified_doc).2
          (if op.j1 < (prepare_html_tokens modified_doc).1.length then op.j1
           else (prepare_html_tokens modified_doc).1.length - 1)) := by
  unfold classify_opcodes
  exact classify_fold_delete_entries original_doc modified_doc
    (prepare_html_tokens original_doc).2 (prepare_html_tokens modified_doc).2
    (prepare_html_tokens original_doc).1 (prepare_html_tokens modified_doc).1
    (get_opcodes (prepare_html_tokens original_doc).1
      (prepare_html_tokens modified_doc).1)
    (get_opcodes (prepare_html_tokens original_doc).1
      (prepare_html_tokens modified_doc).1)
    initial_build_state (fun op hop => hop)
    (fun e he => absurd he (List.not_mem_nil e))
    (fun it hit => absurd hit (List.not_mem_nil it))

/-- Witness for the amended C7: at `<p>a b</p>` vs `<p>a</p>`, the
placeholder entry `diff-1` anchors at the delete opcode's raw
`j1 = 1 = len(modified_tokens)`. -/
theorem delete_placeholder_unclamped_witness :
    ∃ op ∈ get_opcodes (prepare_html_tokens c7_original).1
        (prepare_html_tokens c7_modified).1,
      op.tag = .delete ∧ op.i1 ≠ op.i2 ∧
        (1 : Nat) = op.j1 ∧ (1 : Nat) = op.j1 :=
  (delete_placeholder_unclamped c7_original c7_modified).1
    ⟨"diff-1", "delete", "modified", 1, 1, some "删除", some 1, true⟩
    (by decide) rfl rfl

/-! #### C3: textual round-trip of highlight injection -/

def frag_text : Frag → String
  | .ftext s => s
  | .marker _ s => s

def frags_text (fs : List Frag) : String :=
  join_tokens (fs.map frag_text)

theorem join_tokens_append (xs ys : List String) :
    join_tokens (xs ++ ys) = join_tokens xs ++ join_tokens ys := by
  apply String.ext
  simp [join_tokens_data]

theorem frags_text_append (xs ys : List Frag) :
    frags_text (xs ++ ys) = frags_text xs ++ frags_text ys := by
  unfold frags_text
  rw [List.map_append, join_tokens_append]

theorem flush_leaf_spec (spans : List HighlightEntry) (st : LeafState) :
    frags_text (flush_leaf spans st).frags =
      frags_text st.frags ++ join_tokens st.buffer ∧
    (flush_leaf spans st).buffer = [] ∧
    (flush_leaf spans st).buckets = st.buckets := by
  unfold flush_leaf
  by_cases hb : st.buffer.isEmpty
  · rw [if_pos hb]
    have : st.buffer = [] := by simpa [List.isEmpty_iff] using hb
    rw [this]
    exact ⟨by simp [join_tokens], rfl, rfl⟩
  · rw [if_neg hb]
    refine ⟨?_, rfl, rfl⟩
    cases h : st.current with
    | none =>
      simp only [h, frags_text_append]
      simp [frags_text, frag_text, join_tokens]
    | some k =>
      simp only [h, frags_text_append]
      simp [frags_text, frag_text, join_tokens]

theorem emit_boundary_nil (spans : List HighlightEntry) (st : LeafState)
    (idx : Nat) (h : st.buckets = []) :
    emit_boundary spans st idx = st := by
  rcases st with ⟨buf, cur, fr, bk⟩
  dsimp only at h
  subst h
  rfl

theorem leaf_token_loop_text (spans : List HighlightEntry)
    (lookup : Nat → Option Nat) (start_index : Nat) :
    ∀ (tokens : List String) (offset : Nat) (st : LeafState),
      st.buckets = [] →
      (leaf_token_loop spans lookup start_index tokens offset st).buckets = [] ∧
      frags_text (leaf_token_loop spans lookup start_index tokens offset st).frags
          ++ join_tokens
            (leaf_token_loop spans lookup start_index tokens offset st).buffer =
        frags_text st.frags ++ join_tokens st.buffer ++ join_tokens tokens := by
  intro tokens
  induction tokens with
  | nil =>
    intro offset st hb
    exact ⟨hb, by simp [leaf_token_loop, join_tokens]⟩
  | cons token rest ih =>
    intro offset st hb
    rw [leaf_token_loop]
    set st1 := if lookup (start_index + offset) ≠ st.current then
        let f := flush_leaf spans st
        { f with current := lookup (start_index + offset) }
      else st with hst1
    have h1 : frags_text st1.frags ++ join_tokens st1.buffer =
        frags_text st.frags ++ join_tokens st.buffer ∧ st1.buckets = [] := by
      rw [hst1]
      split
      · obtain ⟨f1, f2, f3⟩ := flush_leaf_spec spans st
        constructor
        · dsimp only
          rw [f1, f2]
          simp [join_tokens]
        · dsimp only
          rw [f3]
          exact hb
      · exact ⟨rfl, hb⟩
    set st2 : LeafState := { st1 with buffer := st1.buffer ++ [token] } with hst2
    have h2 : frags_text st2.frags ++ join_tokens st2.buffer =
        frags_text st.frags ++ join_tokens st.buffer ++ join_tokens [token] ∧
        st2.buckets = [] := by
      rw [hst2]
      dsimp only
      rw [join_tokens_append, ← String.append_assoc, h1.1]
      exact ⟨rfl, h1.2⟩
    rw [emit_boundary_nil spans st2 _ h2.2]
    obtain ⟨r1, r2⟩ := ih (offset + 1) st2 h2.2
    refine ⟨r1, ?_⟩
    rw [r2, h2.1]
    apply String.ext
    simp [join_tokens_data]

theorem process_leaf_text (spans : List HighlightEntry)
    (lookup : Nat → Option Nat) (info : LeafInfo) :
    (process_leaf spans lookup info []).2 = [] ∧
    frags_text (process_leaf spans lookup info []).1 =
      join_tokens info.tokens := by
  unfold process_leaf
  dsimp only
  rw [emit_boundary_nil spans _ info.start rfl]
  obtain ⟨l1, l2⟩ := leaf_token_loop_text spans lookup info.start
    info.tokens 0 ⟨[], none, [], []⟩ rfl
  obtain ⟨f1, f2, f3⟩ := flush_leaf_spec spans
    (leaf_token_loop spans lookup info.start info.tokens 0 ⟨[], none, [], []⟩)
  rw [emit_boundary_nil spans _ info.stop (by rw [f3]; exact l1)]
  refine ⟨by rw [f3]; exact l1, ?_⟩
  rw [f1, l2]
  simp [frags_text, join_tokens]

theorem process_leaves_text (spans : List HighlightEntry)
    (lookup : Nat → Option Nat) :
    ∀ (infos : List LeafInfo),
      (process_leaves spans lookup infos []).2 = [] ∧
      (process_leaves spans lookup infos []).1.map frags_text =
        infos.map (fun info => join_tokens info.tokens) := by
  intro infos
  induction infos with
  | nil => exact ⟨rfl, rfl⟩
  | cons info rest ih =>
    obtain ⟨p1, p2⟩ := process_leaf_text spans lookup info
    rw [show process_leaves spans lookup (info :: rest) [] =
      ((process_leaf spans lookup info []).1 ::
        (process_leaves spans lookup rest (process_leaf spans lookup info []).2).1,
       (process_leaves spans lookup rest (process_leaf spans lookup info []).2).2)
      from rfl]
    rw [p1]
    exact ⟨ih.1, by rw [List.map_cons, p2, ih.2, List.map_cons]⟩

theorem split_highlights_all_spans (highlights : List HighlightEntry)
    (h : ∀ e ∈ highlights, e.start < e.stop) :
    split_highlights highlights = (highlights, []) := by
  unfold split_highlights
  suffices haux : ∀ (hs : List HighlightEntry) (acc : List HighlightEntry),
      (∀ e ∈ hs, e.start < e.stop) →
      hs.foldl (fun acc e =>
        if e.start < e.stop then (acc.1 ++ [e], acc.2)
        else (acc.1, add_boundary acc.2 e.start e)) (acc, []) =
        (acc ++ hs, []) by
    simpa using haux highlights [] h
  intro hs
  induction hs with
  | nil => intro acc _; simp
  | cons e rest ih =>
    intro acc hall
    rw [List.foldl_cons, if_pos (hall e (List.mem_cons_self e rest))]
    rw [ih (acc ++ [e]) (fun x hx => hall x (List.mem_cons_of_mem e hx))]
    simp

theorem doc_texts_append (xs ys : List HNode) :
    doc_texts (xs ++ ys) = doc_texts xs ++ doc_texts ys := by
  induction xs with
  | nil => simp [doc_texts]
  | cons n rest ih => simp [doc_texts, ih]

theorem doc_texts_frag_nodes (fs : List Frag) :
    doc_texts (fs.map frag_to_node) = fs.map frag_text := by
  induction fs with
  | nil => rfl
  | cons f rest ih =>
    cases f with
    | ftext s => simp [doc_texts, node_texts, frag_to_node, frag_text, ih]
    | marker e s =>
      simp [doc_texts, node_texts, frag_to_node, frag_text, create_marker_tag, ih]

mutual

theorem rebuild_node_text (frags : List (List HNode)) (n : HNode) :
    ∀ (k : Nat),
      (∀ i, i < ((node_texts n).filter (· ≠ "")).length →
        ∀ fs, frags[k + i]? = some fs →
          join_tokens (doc_texts fs) =
            ((node_texts n).filter (· ≠ "")).getD i "") →
      (rebuild_node frags n k).2 =
        k + ((node_texts n).filter (· ≠ "")).length ∧
      join_tokens (doc_texts (rebuild_node frags n k).1) =
        join_tokens (node_texts n) := by
  match n with
  | .text s =>
    intro k hyp
    by_cases hs : s = ""
    · subst hs
      constructor
      · simp [rebuild_node, node_texts]
      · simp [rebuild_node, node_texts, doc_texts]
    · have hfil : (node_texts (.text s)).filter (· ≠ "") = [s] := by
        simp [node_texts, hs]
      rw [hfil] at hyp ⊢
      constructor
      · simp [rebuild_node, hs]
      · rw [show (rebuild_node frags (.text s) k).1 = frags.getD k [.text s] by
          simp [rebuild_node, hs]]
        cases hget : frags[k]? with
        | none =>
          rw [show frags.getD k [HNode.text s] = [HNode.text s] by
            simp [List.getD_eq_getElem?_getD, hget]]
          simp [doc_texts, node_texts]
        | some fs =>
          rw [show frags.getD k [HNode.text s] = fs by
            simp [List.getD_eq_getElem?_getD, hget]]
          have h := hyp 0 (by simp) fs (by simpa using hget)
          simpa using h
  | .tag name attrs children =>
    intro k hyp
    have h := rebuild_children_text frags children k hyp
    constructor
    · exact h.1
    · have hshape : (rebuild_node frags (.tag name attrs children) k).1 =
          [.tag name attrs (rebuild_children frags children k).1] := rfl
      rw [hshape]
      simpa [doc_texts, node_texts] using h.2

theorem rebuild_children_text (frags : List (List HNode)) (nodes : List HNode) :
    ∀ (k : Nat),
      (∀ i, i < ((doc_texts nodes).filter (· ≠ "")).length →
        ∀ fs, frags[k + i]? = some fs →
          join_tokens (doc_texts fs) =
            ((doc_texts nodes).filter (· ≠ "")).getD i "") →
      (rebuild_children frags nodes k).2 =
        k + ((doc_texts nodes).filter (· ≠ "")).length ∧
      join_tokens (doc_texts (rebuild_children frags nodes k).1) =
        join_tokens (doc_texts nodes) := by
  match nodes with
  | [] =>
    intro k _
    constructor
    · simp [rebuild_children, doc_texts]
    · rfl
  | n :: rest =>
    intro k hyp
    have hsplit : (doc_texts (n :: rest)).filter (· ≠ "") =
        (node_texts n).filter (· ≠ "") ++ (doc_texts rest).filter (· ≠ "") := by
      simp [doc_texts, List.filter_append]
    have hyp_n : ∀ i, i < ((node_texts n).filter (· ≠ "")).length →
        ∀ fs, frags[k + i]? = some fs →
          join_tokens (doc_texts fs) =
            ((node_texts n).filter (· ≠ "")).getD i "" := by
      intro i hi fs hf
      have h := hyp i (by rw [hsplit]; rw [List.length_append]; omega) fs hf
      rwa [hsplit, List.getD_append _ _ _ _ hi] at h
    obtain ⟨h1, h2⟩ := rebuild_node_text frags n k hyp_n
    have hyp_r : ∀ i, i < ((doc_texts rest).filter (· ≠ "")).length →
        ∀ fs, frags[(rebuild_node frags n k).2 + i]? = some fs →
          join_tokens (doc_texts fs) =
            ((doc_texts rest).filter (· ≠ "")).getD i "" := by
      intro i hi fs hf
      rw [h1] at hf
      have heq : k + ((node_texts n).filter (· ≠ "")).length + i =
          k + (((node_texts n).filter (· ≠ "")).length + i) := by omega
      rw [heq] at hf
      have h := hyp (((node_texts n).filter (· ≠ "")).length + i)
        (by rw [hsplit, List.length_append]; omega) fs hf
      rw [hsplit, List.getD_append_right _ _ _ _ (by omega)] at h
      simpa using h
    obtain ⟨h3, h4⟩ := rebuild_children_text frags rest (rebuild_node frags n k).2 hyp_r
    have hshape : rebuild_children frags (n :: rest) k =
        ((rebuild_node frags n k).1 ++
          (rebuild_children frags rest (rebuild_node frags n k).2).1,
         (rebuild_children frags rest (rebuild_node frags n k).2).2) := rfl
    rw [hshape]
    constructor
    · dsimp only
      rw [h3, h1, hsplit, List.length_append]
      omega
    · dsimp only
      rw [doc_texts_append, join_tokens_append, h2, h4]
      rw [show doc_texts (n :: rest) = node_texts n ++ doc_texts rest from rfl]
      rw [join_tokens_append]

end

theorem join_tokenize (s : String) : join_tokens (tokenize_text s) = s := by
  rw [tokenize_text, join_tokenize_aux]
  simp

theorem prepare_from_texts_tokens (texts : List String) :
    ∀ (start : Nat),
      (prepare_from_texts texts start).2.map LeafInfo.tokens =
        (texts.filter (· ≠ "")).map tokenize_text := by
  induction texts with
  | nil => intro start; simp [prepare_from_texts]
  | cons text rest ih =>
    intro start
    by_cases ht : text = ""
    · simpa [prepare_from_texts, ht] using ih start
    · have hparts : ¬(tokenize_text text).isEmpty := by
        simpa [List.isEmpty_iff] using tokenize_text_ne_nil text ht
      simp [prepare_from_texts, ht, hparts, ih, List.filter_cons]

/-- C3 amended — Highlight-injection text round-trip, corrected: wrapping
tokens in span markers never adds, drops, or changes recoverable text,
but a boundary (placeholder) entry inserts one extra non-breaking space;
so the concatenated textual content of the tree is preserved exactly for
every highlight list that contains only span entries (`end > start`). -/
theorem apply_highlights_span_text_roundtrip (doc : List HNode)
    (highlights : List HighlightEntry)
    (h : ∀ e ∈ highlights, e.start < e.stop) :
    doc_text_concat (apply_highlights_tree doc (prepare_html_tokens doc).2
        highlights) =
      doc_text_concat doc := by
  unfold apply_highlights_tree
  rw [split_highlights_all_spans highlights h]
  dsimp only
  obtain ⟨pl1, pl2⟩ := process_leaves_text highlights
    (build_lookup highlights) (prepare_html_tokens doc).2
  rw [pl1]
  rw [show ∀ X, apply_leftover X [] = X from fun X => by simp [apply_leftover]]
  unfold doc_text_concat
  have hlen : (prepare_html_tokens doc).2.length =
      ((doc_texts doc).filter (· ≠ "")).length := by
    have := congrArg List.length
      (prepare_from_texts_tokens (doc_texts doc) 0)
    simpa [prepare_html_tokens] using this
  refine (rebuild_children_text
    ((process_leaves highlights (build_lookup highlights)
        (prepare_html_tokens doc).2 []).1.map
      (fun fs => fs.map frag_to_node)) doc 0 ?_).2
  intro i hi fs hf
  rw [Nat.zero_add, List.getElem?_map] at hf
  cases hg : (process_leaves highlights (build_lookup highlights)
      (prepare_html_tokens doc).2 []).1[i]? with
  | none =>
    rw [hg] at hf
    simp at hf
  | some fs0 =>
    rw [hg] at hf
    simp only [Option.map_some'] at hf
    have hfs : fs = fs0.map frag_to_node := by
      have := hf.symm
      simpa using this
    rw [hfs, show doc_texts (fs0.map frag_to_node) = fs0.map frag_text from
      doc_texts_frag_nodes fs0]
    have hidx1 := congrArg (fun l => l[i]?) pl2
    simp only [List.getElem?_map, hg, Option.map_some'] at hidx1
    have hidx2 := congrArg (fun l => l[i]?)
      (prepare_from_texts_tokens (doc_texts doc) 0)
    simp only [List.getElem?_map] at hidx2
    cases hinfo : (prepare_html_tokens doc).2[i]? with
    | none =>
      rw [show (prepare_from_texts (doc_texts doc) 0).2[i]? =
          (prepare_html_tokens doc).2[i]? from rfl, hinfo] at hidx2
      have hi' : i < (prepare_html_tokens doc).2.length := by omega
      rw [List.getElem?_eq_getElem hi'] at hinfo
      simp at hinfo
    | some info =>
      rw [show (prepare_from_texts (doc_texts doc) 0).2[i]? =
          (prepare_html_tokens doc).2[i]? from rfl, hinfo] at hidx2
      rw [hinfo] at hidx1
      simp only [Option.map_some'] at hidx1 hidx2
      cases hne : ((doc_texts doc).filter (· ≠ ""))[i]? with
      | none =>
        rw [hne] at hidx2
        simp at hidx2
      | some t =>
        rw [hne] at hidx2
        simp only [Option.map_some', Option.some.injEq] at hidx1 hidx2
        rw [show frags_text fs0 = join_tokens (fs0.map frag_text) from rfl] at hidx1
        rw [hidx1, hidx2, join_tokenize]
        rw [List.getD_eq_getElem?_getD, hne]
        rfl

def c3_original : List HNode := [.tag "p" [] [.text "a"]]

def c3_modified : List HNode := [.tag "p" [] [.text "a b"]]

/-- Counterexample to C3 as stated: the diff pass of `<p>a</p>` against
`<p>a b</p>` puts a boundary placeholder highlight (for the insert) on
the original side; injecting it adds a non-breaking space to the
original tree's textual content, so the concatenated text is not
preserved. -/
theorem highlight_roundtrip_counterexample :
    doc_text_concat (apply_highlights_tree c3_original
        (prepare_html_tokens c3_original).2
        (classify_opcodes c3_original c3_modified
          (prepare_html_tokens c3_original).2 (prepare_html_tokens c3_modified).2
          (prepare_html_tokens c3_original).1 (prepare_html_tokens c3_modified).1
          (get_opcodes (prepare_html_tokens c3_original).1
            (prepare_html_tokens c3_modified).1)).highlights_original) ≠
      doc_text_concat c3_original := by
  set_option maxRecDepth 10000 in decide

/-- Witness for the amended C3 at a concrete input: one span highlight on
`<p>a b</p>` leaves the text content unchanged. -/
theorem apply_highlights_span_text_roundtrip_witness :
    doc_text_concat (apply_highlights_tree [HNode.tag "p" [] [HNode.text "a b"]]
        (prepare_html_tokens [HNode.tag "p" [] [HNode.text "a b"]]).2
        [⟨"diff-1", "replace", "original", 0, 1, some "修改", some 1, false⟩]) =
      doc_text_concat [HNode.tag "p" [] [HNode.text "a b"]] :=
  apply_highlights_span_text_roundtrip
    [HNode.tag "p" [] [HNode.text "a b"]]
    [⟨"diff-1", "replace", "original", 0, 1, some "修改", some 1, false⟩]
    (by decide)

end ContractDiff
